import Mathlib

/-
Verification of the ikin-expert forward-chaining Rete engine
(src/ikin_expert/engine.py) against its natural-language specification.

The engine is embedded shallowly:

* Python attribute values are the inductive `PyVal`; Python `==` is `pyEq`
  (value equality on ints, strings and `None`; object identity on `Match`
  binding references, which define no `__eq__`).
* A pydantic fact is `FactV`: an exact class name, the list of proper
  superclass names (for `isinstance`), and a field map.  Facts are immutable
  and compare by value.
* The node graph lives in an arena (`Engine.arena`, a list of `Node`);
  children are arena indices.  The dummy beta root keeps only a child list
  (`Engine.dummyChildren`), as in the source.
* Propagation (`dispatch`) is the isinstance-dispatch of the source turned
  into a case analysis on the receiving node kind; it is fuel-indexed because
  the recursion follows the network graph.  Compiled networks are DAGs, so
  any fuel at least the network depth computes the real result.
* Rule actions are arbitrary Python callables; they are modelled by an
  environment `env : String -> List FactV -> List FactV` giving, per rule
  name and match tuple, the facts the action declares re-entrantly.  An
  action that raises is `env` returning `[]` (the loop catches and logs).
-/

-- ===========================================================================
-- Python values and operators
-- ===========================================================================

/-- Python attribute values as used by the engine: ints, strings, `None`,
and `Match` binding references.  A binding reference carries the object id
of the `Match` instance (`objId`) because `Match` defines no `__eq__`, so
Python compares such objects by identity. -/
inductive PyVal where
  | int (n : Int)
  | str (s : String)
  | vnone
  | binding (objId : Nat) (name : String)
deriving DecidableEq, Repr

/-- Python `==` on the values above: value equality for ints, strings and
`None`; identity for `Match` objects; `False` across kinds. -/
def pyEq : PyVal → PyVal → Bool
  | .int a, .int b => a == b
  | .str a, .str b => a == b
  | .vnone, .vnone => true
  | .binding i _, .binding j _ => i == j
  | _, _ => false

/-- Python `>` for the value kinds the engine compares.  Mixed-kind
comparisons raise `TypeError` in Python; no rule in scope compares mixed
kinds, and the model returns `false` there. -/
def pyGt : PyVal → PyVal → Bool
  | .int a, .int b => decide (b < a)
  | .str a, .str b => decide (b < a)
  | _, _ => false

/-- Python `>=`, with the same caveats as `pyGt`. -/
def pyGe : PyVal → PyVal → Bool
  | .int a, .int b => decide (b ≤ a)
  | .str a, .str b => decide (b ≤ a)
  | _, _ => false

/-- Python `<`, with the same caveats as `pyGt`. -/
def pyLt : PyVal → PyVal → Bool
  | .int a, .int b => decide (a < b)
  | .str a, .str b => decide (a < b)
  | _, _ => false

/-- Python `<=`, with the same caveats as `pyGt`. -/
def pyLe : PyVal → PyVal → Bool
  | .int a, .int b => decide (a ≤ b)
  | .str a, .str b => decide (a ≤ b)
  | _, _ => false

-- ===========================================================================
-- Match (binding references), engine.py lines 10-26
-- ===========================================================================

/-- The `Match.__getattr__` of the source: attribute access on a `Match`
object returns a fresh `Match(name)`.  `freshId` is the object id of the
newly allocated instance; a new Python object is created on every access. -/
def matchAttr (_self : PyVal) (name : String) (freshId : Nat) : PyVal :=
  .binding freshId name

/-- The global sentinel `MATCH = Match("root")` (object id 0 in the model). -/
def MATCH : PyVal := .binding 0 "root"

/-- The name of a binding reference, if the value is one. -/
def bindingName : PyVal → Option String
  | .binding _ n => some n
  | _ => none

-- ===========================================================================
-- Facts and tokens, engine.py lines 32-67
-- ===========================================================================

/-- A pydantic fact: exact class name, proper superclass names, field map.
Facts are frozen and compare by value. -/
structure FactV where
  cls : String
  sups : List String
  fields : List (String × PyVal)
deriving DecidableEq, Repr

/-- Python `getattr(f, field)` when it exists, i.e. `hasattr` plus access. -/
def getattrOpt (f : FactV) (field : String) : Option PyVal :=
  (f.fields.find? (fun p => p.1 == field)).map (fun p => p.2)

/-- Python `getattr(f, field, None)`: the absent-field default used by the
hash join key extraction (`HashJoinNode._get_key`). -/
def getattrD (f : FactV) (field : String) : PyVal :=
  (getattrOpt f field).getD .vnone

/-- Python `isinstance(f, C)`: the exact class or any superclass matches. -/
def isInstance (f : FactV) (c : String) : Bool :=
  f.cls == c || f.sups.contains c

/-- A token: a backward-linked chain of facts.  The empty root token
(`Token(None, None)`) is `root`; each join produces `cons parent fact`. -/
inductive TokenV where
  | root
  | cons (parent : TokenV) (fact : FactV)
deriving DecidableEq, Repr

/-- `Token.to_list`: the facts along the parent chain, root first.  The
source memoises the result; the model is pure so no cache is needed. -/
def TokenV.toList : TokenV → List FactV
  | .root => []
  | .cons p f => p.toList ++ [f]

/-- `Token.get_fact_by_index`: the i-th fact of the flat list, or `None`
when the index is out of range. -/
def TokenV.getFactByIndex (t : TokenV) (i : Nat) : Option FactV :=
  t.toList[i]?

-- ===========================================================================
-- Constraint keys: Python str.split("__"), engine.py lines 303-304
-- ===========================================================================

/-- Python `s.split("__")` on the character list of `s`: greedy left-to-right
split on two consecutive underscores.  (`String.splitOn` agrees but does not
reduce in the kernel, so the split is spelled out structurally.) -/
def splitUU : List Char → List (List Char)
  | [] => [[]]
  | '_' :: '_' :: rest => [] :: splitUU rest
  | c :: rest =>
    match splitUU rest with
    | [] => [[c]]
    | p :: ps => (c :: p) :: ps

/-- Python `"__" in key`, phrased via the split. -/
def hasUU (k : String) : Bool :=
  decide (2 ≤ (splitUU k.data).length)

/-- The key parser of `_get_or_create_alpha_chain`:
`if "__" in field_op: field, op = field_op.split("__") else field, op =
field_op, "eq"`.  The two-element unpacking raises `ValueError` when the
split yields three or more parts. -/
def parseKey (k : String) : Except String (String × String) :=
  if hasUU k then
    match splitUU k.data with
    | [f, o] => .ok (String.mk f, String.mk o)
    | _ => .error "ValueError: too many values to unpack"
  else .ok (k, "eq")

/-- Python `key.split("__")[0]`, used by the compiler when it registers the
field of a binding-valued constraint. -/
def keyFieldPart (k : String) : String :=
  String.mk ((splitUU k.data).headD [])

/-- Modelled from the spec: the split the specification describes, namely one
split on the rightmost `__` separator, with a missing separator meaning
operator `eq`.  This is the comparison point for the refinement claim about
`parseKey`; it is not code of the source. -/
def parseKeyRightmost (k : String) : String × String :=
  let parts := splitUU k.data
  if parts.length ≤ 1 then (k, "eq")
  else
    (String.mk (joinUU parts.dropLast), String.mk (parts.getLastD []))
where
  /-- Rejoin split parts with the `__` separator. -/
  joinUU : List (List Char) → List Char
    | [] => []
    | [p] => p
    | p :: ps => p ++ '_' :: '_' :: joinUU ps

-- ===========================================================================
-- Alpha test, engine.py lines 101-116
-- ===========================================================================

/-- `AlphaNode.test`: fail when the fact lacks the field; approve
unconditionally when the stored value is a `Match` binding; otherwise apply
the operator, in the order the source checks them. -/
def alphaTest (field op : String) (value : PyVal) (f : FactV) : Bool :=
  match getattrOpt f field with
  | none => false
  | some factVal =>
    match value with
    | .binding _ _ => true
    | _ =>
      if op == "eq" then pyEq factVal value
      else if op == "gt" then pyGt factVal value
      else if op == "gte" then pyGe factVal value
      else if op == "lt" then pyLt factVal value
      else if op == "lte" then pyLe factVal value
      else if op == "neq" then !(pyEq factVal value)
      else false

-- ===========================================================================
-- Agenda and activations, engine.py lines 256-275
-- ===========================================================================

/-- An agenda entry: rule name, priority (the terminal node salience), the
match tuple.  `seq` is a specification ghost recording the enqueue order; in
Python that order is the list position before the stable sort. -/
structure ActivationV where
  ruleName : String
  priority : Int
  facts : List FactV
  seq : Nat
deriving DecidableEq, Repr

/-- The agenda: the activation list plus the ghost enqueue counter. -/
structure AgendaV where
  activations : List ActivationV
  counter : Nat
deriving DecidableEq, Repr

/-- Insert an activation into a descending-priority list, after every
element of greater or equal priority.  Folding this over a list is a stable
descending sort, which is the extensional behaviour of the Python
`list.sort(key=priority, reverse=True)` (Timsort is stable). -/
def insertDesc (a : ActivationV) : List ActivationV → List ActivationV
  | [] => [a]
  | b :: rest =>
    if a.priority ≤ b.priority then b :: insertDesc a rest
    else a :: b :: rest

/-- Stable sort by priority descending, the model of the Python stable
`sort(key=lambda x: x.priority, reverse=True)`. -/
def stableSortDesc (l : List ActivationV) : List ActivationV :=
  l.foldl (fun acc a => insertDesc a acc) []

/-- `Agenda.add_activation`: append, then stable-sort by priority
descending.  The new entry receives the next ghost sequence number. -/
def addActivation (ag : AgendaV) (rn : String) (sal : Int)
    (facts : List FactV) : AgendaV :=
  { activations :=
      stableSortDesc (ag.activations ++
        [{ ruleName := rn, priority := sal, facts := facts,
           seq := ag.counter }]),
    counter := ag.counter + 1 }

/-- `Agenda.pop`: remove and return the front activation, if any. -/
def popAgenda (ag : AgendaV) : Option (ActivationV × AgendaV) :=
  match ag.activations with
  | [] => none
  | a :: rest => some (a, { ag with activations := rest })

-- ===========================================================================
-- Network nodes, engine.py lines 82-250
-- ===========================================================================

/-- The closed set of node kinds of the network (the dummy root is kept
outside the arena, as in the source where it is a field of the engine). -/
inductive NodeKind where
  | typeN (cls : String)
  | alphaN (field op : String) (value : PyVal)
  | cartesianN
  | hashN (leftIdx : Nat) (leftField rightField : String)
  | terminalN (ruleName : String) (salience : Int)
deriving DecidableEq, Repr

/-- A network node: kind, ordered children (arena indices), and the memories
of the source classes.  Kinds that lack a memory in the source simply never
touch the corresponding field. -/
structure Node where
  kind : NodeKind
  children : List Nat
  items : List FactV
  leftMemory : List TokenV
  rightMemory : List FactV
  leftIndex : List (PyVal × List TokenV)
  rightIndex : List (PyVal × List FactV)
deriving DecidableEq, Repr

/-- A fresh node of the given kind with no children and empty memories. -/
def mkNode (k : NodeKind) : Node :=
  { kind := k, children := [], items := [], leftMemory := [],
    rightMemory := [], leftIndex := [], rightIndex := [] }

/-- The out-of-range placeholder for arena reads; compiled engines never
index past the arena. -/
def defaultNode : Node := mkNode (.terminalN "" 0)

instance : Inhabited Node := ⟨defaultNode⟩

/-- Python set insertion for the alpha memory (`self.items.add(fact)`):
facts hash by value, so insertion deduplicates by value equality. -/
def setInsert (l : List FactV) (f : FactV) : List FactV :=
  if l.contains f then l else l ++ [f]

/-- Append to the bucket of `key` in a `defaultdict(list)` keyed by Python
equality; a missing bucket is created at the end, matching dict insertion
order. -/
def indexAdd {α : Type} (idx : List (PyVal × List α)) (key : PyVal)
    (x : α) : List (PyVal × List α) :=
  match idx with
  | [] => [(key, [x])]
  | (k, xs) :: rest =>
    if pyEq k key then (k, xs ++ [x]) :: rest
    else (k, xs) :: indexAdd rest key x

/-- Bucket lookup (`key in index` plus `index[key]`), by Python equality. -/
def indexFind {α : Type} (idx : List (PyVal × List α)) (key : PyVal) :
    Option (List α) :=
  match idx with
  | [] => none
  | (k, xs) :: rest => if pyEq k key then some xs else indexFind rest key

/-- `HashJoinNode.left_activate`, memory part: look up the indexed ancestor
fact; if absent, drop the token; otherwise index the token under
`getattr(fact, left_field, None)` and return the right-memory partners of
that key. -/
def hashLeftUpdate (leftIdx : Nat) (leftField : String) (node : Node)
    (t : TokenV) : Node × List FactV :=
  match t.getFactByIndex leftIdx with
  | none => (node, [])
  | some tf =>
    let key := getattrD tf leftField
    ({ node with leftIndex := indexAdd node.leftIndex key t },
     (indexFind node.rightIndex key).getD [])

/-- `HashJoinNode.right_activate`, memory part: index the fact under
`getattr(fact, right_field, None)` and return the left-memory partner
tokens of that key. -/
def hashRightUpdate (rightField : String) (node : Node) (f : FactV) :
    Node × List TokenV :=
  let key := getattrD f rightField
  ({ node with rightIndex := indexAdd node.rightIndex key f },
   (indexFind node.leftIndex key).getD [])

-- ===========================================================================
-- The engine state, engine.py lines 285-407
-- ===========================================================================

/-- A pattern: target schema name plus the ordered constraint kwargs. -/
structure RulePattern where
  cls : String
  constraints : List (String × PyVal)
deriving DecidableEq, Repr

/-- A registered rule: method name, salience, ordered pattern list (what the
`@Rule` decorator attaches to the method). -/
structure RuleDef where
  name : String
  salience : Int
  patterns : List RulePattern
deriving DecidableEq, Repr

/-- The engine: agenda, schema-to-type-node map (`rete_root`), the child
list of the dummy beta root, the node arena, and the registered rules that
`_build_network` compiles. -/
structure Engine where
  agenda : AgendaV
  reteRoot : List (String × Nat)
  dummyChildren : List Nat
  arena : List Node
  rules : List RuleDef
deriving DecidableEq, Repr

/-- Read a node from the arena. -/
def Engine.getNode (e : Engine) (i : Nat) : Node :=
  e.arena.getD i defaultNode

/-- Replace a node in the arena. -/
def Engine.setNode (e : Engine) (i : Nat) (n : Node) : Engine :=
  { e with arena := e.arena.set i n }

/-- Allocate a node at the end of the arena, returning its index. -/
def Engine.pushNode (e : Engine) (n : Node) : Engine × Nat :=
  ({ e with arena := e.arena ++ [n] }, e.arena.length)

/-- `ReteNode.add_child`: append a child index to a node. -/
def Engine.addChild (e : Engine) (parent child : Nat) : Engine :=
  e.setNode parent
    { e.getNode parent with
        children := (e.getNode parent).children ++ [child] }

/-- Append a child to the dummy beta root. -/
def Engine.addDummyChild (e : Engine) (c : Nat) : Engine :=
  { e with dummyChildren := e.dummyChildren ++ [c] }

/-- The state of a newly constructed engine before `_build_network` runs. -/
def emptyEngine (rules : List RuleDef) : Engine :=
  { agenda := { activations := [], counter := 0 }, reteRoot := [],
    dummyChildren := [], arena := [], rules := rules }

-- ===========================================================================
-- Propagation, engine.py lines 118-142, 167-250
-- ===========================================================================

/-- What a node receives: a fact (type/alpha activation, beta right input,
terminal single-fact activation) or a token (beta left input, terminal token
activation).  The isinstance dispatch of the source becomes the case split
on the receiving node kind. -/
inductive Signal where
  | factS (f : FactV)
  | tokenS (t : TokenV)
deriving DecidableEq, Repr

/-- Propagation through the network.  Each case is the corresponding method
of the source; `propagate` of the beta base class is inlined at its four
call sites: build the new token and hand it to every child, which reacts
according to its own kind exactly as the isinstance chain does.  Fuel bounds
the recursion depth through the graph; compiled networks are acyclic, so any
sufficiently large fuel yields the Python result. -/
def dispatchBody (recur : Engine → Nat → Signal → Engine) (e : Engine)
    (nid : Nat) (node : Node) (sig : Signal) : Engine :=
  match node.kind, sig with
  | .typeN cls, .factS f =>
    if isInstance f cls then
      node.children.foldl (fun acc c => recur acc c (.factS f)) e
    else e
  | .alphaN field op value, .factS f =>
    if alphaTest field op value f then
      let e1 := e.setNode nid { node with items := setInsert node.items f }
      node.children.foldl (fun acc c => recur acc c (.factS f)) e1
    else e
  | .cartesianN, .tokenS t =>
    let e1 := e.setNode nid
      { node with leftMemory := node.leftMemory ++ [t] }
    node.rightMemory.foldl (fun acc f =>
      node.children.foldl
        (fun acc2 c => recur acc2 c (.tokenS (.cons t f))) acc) e1
  | .cartesianN, .factS f =>
    let e1 := e.setNode nid
      { node with rightMemory := node.rightMemory ++ [f] }
    node.leftMemory.foldl (fun acc t =>
      node.children.foldl
        (fun acc2 c => recur acc2 c (.tokenS (.cons t f))) acc) e1
  | .hashN li lf _, .tokenS t =>
    let res := hashLeftUpdate li lf node t
    let e1 := e.setNode nid res.1
    res.2.foldl (fun acc f =>
      node.children.foldl
        (fun acc2 c => recur acc2 c (.tokenS (.cons t f))) acc) e1
  | .hashN _ _ rf, .factS f =>
    let res := hashRightUpdate rf node f
    let e1 := e.setNode nid res.1
    res.2.foldl (fun acc t =>
      node.children.foldl
        (fun acc2 c => recur acc2 c (.tokenS (.cons t f))) acc) e1
  | .terminalN rn sal, .factS f =>
    { e with agenda := addActivation e.agenda rn sal [f] }
  | .terminalN rn sal, .tokenS t =>
    { e with agenda := addActivation e.agenda rn sal t.toList }
  | _, _ => e

/-- Fuel-indexed propagation: read the receiving node and apply the body,
recursing with one unit of fuel less. -/
def dispatch : Nat → Engine → Nat → Signal → Engine
  | 0, e, _, _ => e
  | fuel + 1, e, nid, sig => dispatchBody (dispatch fuel) e nid (e.getNode nid) sig

/-- `DummyBetaNode.left_activate`: send the empty root token to every beta
child (the source checks `isinstance(child, BetaNode)`). -/
def dummyLeftActivate (fuel : Nat) (e : Engine) : Engine :=
  e.dummyChildren.foldl (fun acc c =>
    match (acc.getNode c).kind with
    | .cartesianN => dispatch fuel acc c (.tokenS .root)
    | .hashN _ _ _ => dispatch fuel acc c (.tokenS .root)
    | _ => acc) e

/-- `KnowledgeEngine.declare`: look up the type node of the exact runtime
class of the fact; absent classes are a no-op. -/
def declare (fuel : Nat) (e : Engine) (f : FactV) : Engine :=
  match e.reteRoot.find? (fun p => p.1 == f.cls) with
  | some p => dispatch fuel e p.2 (.factS f)
  | none => e

-- ===========================================================================
-- The rule compiler, engine.py lines 292-388
-- ===========================================================================

/-- Find an existing alpha child of `current` with the same field, operator
and value under Python equality (`child.value == value`); this is the node
sharing search of `_get_or_create_alpha_chain`. -/
def findAlphaChild (e : Engine) (children : List Nat) (field op : String)
    (value : PyVal) : Option Nat :=
  children.find? (fun c =>
    match (e.getNode c).kind with
    | .alphaN f o v => f == field && o == op && pyEq v value
    | _ => false)

/-- Get or create the type node of a schema (`rete_root` access). -/
def getOrCreateTypeNode (e : Engine) (cls : String) : Engine × Nat :=
  match e.reteRoot.find? (fun p => p.1 == cls) with
  | some p => (e, p.2)
  | none =>
    let res := e.pushNode (mkNode (.typeN cls))
    ({ res.1 with reteRoot := res.1.reteRoot ++ [(cls, res.2)] }, res.2)

/-- The constraint loop of `_get_or_create_alpha_chain`: descend through
shared alpha nodes, creating missing ones. -/
def alphaChainLoop (e : Engine) (cur : Nat) :
    List (String × PyVal) → Except String (Engine × Nat)
  | [] => .ok (e, cur)
  | (k, v) :: rest => do
    let fo ← parseKey k
    match findAlphaChild e (e.getNode cur).children fo.1 fo.2 v with
    | some cid => alphaChainLoop e cid rest
    | none =>
      let res := e.pushNode (mkNode (.alphaN fo.1 fo.2 v))
      alphaChainLoop (res.1.addChild cur res.2) res.2 rest

/-- `_get_or_create_alpha_chain`: type node, then the constraint chain. -/
def getOrCreateAlphaChain (e : Engine) (p : RulePattern) :
    Except String (Engine × Nat) :=
  let tn := getOrCreateTypeNode e p.cls
  alphaChainLoop tn.1 tn.2 p.constraints

/-- The variable table `known_vars`: binding name to (pattern index, field).
Python dict assignment replaces the value of an existing key. -/
def dictSet (kv : List (String × Nat × String)) (name : String)
    (v : Nat × String) : List (String × Nat × String) :=
  match kv with
  | [] => [(name, v)]
  | (n, w) :: rest =>
    if n == name then (n, v) :: rest else (n, w) :: dictSet rest name v

/-- Lookup in `known_vars`. -/
def dictGet (kv : List (String × Nat × String)) (name : String) :
    Option (Nat × String) :=
  match kv with
  | [] => none
  | (n, w) :: rest => if n == name then some w else dictGet rest name

/-- Seeding of `known_vars` from pattern 0: every binding-valued constraint
registers its name at pattern index 0 with `key.split("__")[0]`. -/
def seedKnownVars (constraints : List (String × PyVal)) :
    List (String × Nat × String) :=
  constraints.foldl (fun kv c =>
    match c.2 with
    | .binding _ name => dictSet kv name (0, keyFieldPart c.1)
    | _ => kv) []

/-- The join-key scan of `_compile_rule` for pattern `i`: walk the
constraints in order; the first binding whose name is already known becomes
the join key (then the loop breaks); a binding with a new name is registered
at `(i, field)`. -/
def scanJoin (i : Nat) (kv : List (String × Nat × String)) :
    List (String × PyVal) →
      List (String × Nat × String) × Option (Nat × String × String)
  | [] => (kv, none)
  | (k, v) :: rest =>
    match v with
    | .binding _ name =>
      let fieldName := keyFieldPart k
      match dictGet kv name with
      | some lw => (kv, some (lw.1, lw.2, fieldName))
      | none => scanJoin i (dictSet kv name (i, fieldName)) rest
    | _ => scanJoin i kv rest

/-- Attach a child to the current beta input: the dummy root before the
first join, the previous join node afterwards. -/
def addBetaInput (e : Engine) (betaIn : Option Nat) (child : Nat) : Engine :=
  match betaIn with
  | none => e.addDummyChild child
  | some b => e.addChild b child

/-- The pattern loop of the multi-pattern branch of `_compile_rule`:
pattern 0 only builds its alpha chain; every later pattern builds its chain,
scans for a join key, allocates a hash or cartesian join, and links the
current beta input (left) and the alpha tail (right) to it. -/
def betaLoop (e : Engine) (kv : List (String × Nat × String))
    (betaIn : Option Nat) (i : Nat) :
    List RulePattern → Except String (Engine × Option Nat)
  | [] => .ok (e, betaIn)
  | p :: rest => do
    let ac ← getOrCreateAlphaChain e p
    if i == 0 then
      betaLoop ac.1 kv betaIn (i + 1) rest
    else
      let scanned := scanJoin i kv p.constraints
      let joinNode := match scanned.2 with
        | some cfg => mkNode (.hashN cfg.1 cfg.2.1 cfg.2.2)
        | none => mkNode .cartesianN
      let pushed := ac.1.pushNode joinNode
      let e2 := addBetaInput pushed.1 betaIn pushed.2
      let e3 := e2.addChild ac.2 pushed.2
      betaLoop e3 scanned.1 (some pushed.2) (i + 1) rest

/-- `_compile_rule`: allocate the terminal; single-pattern rules hang it
under the alpha tail; multi-pattern rules seed `known_vars` from pattern 0,
run the pattern loop, attach the terminal under the last join, and then
trigger the dummy root (which re-seeds every beta child it has, including
the chains of previously compiled rules). -/
def compileRule (fuel : Nat) (e : Engine) (r : RuleDef) :
    Except String Engine :=
  let pushed := e.pushNode (mkNode (.terminalN r.name r.salience))
  match r.patterns with
  | [] => .error "IndexError: patterns is empty"
  | [p] => do
    let ac ← getOrCreateAlphaChain pushed.1 p
    .ok (ac.1.addChild ac.2 pushed.2)
  | first :: restPats => do
    let kv0 := seedKnownVars first.constraints
    let lp ← betaLoop pushed.1 kv0 none 0 (first :: restPats)
    let e2 := addBetaInput lp.1 lp.2 pushed.2
    .ok (dummyLeftActivate fuel e2)

/-- `_build_network` on a fresh state: compile every registered rule in
order.  (The source discovers rules with `inspect.getmembers`, which sorts
them by method name; the model takes the resulting order as given.) -/
def compileAll (fuel : Nat) (rules : List RuleDef) : Except String Engine :=
  rules.foldlM (fun e r => compileRule fuel e r) (emptyEngine rules)

/-- Modelled from the spec: `reset()` is described in the specification
(sections 4.6 and 8) but absent from the source under src/; per the spec it
replaces the agenda, the type-node map and the dummy root and re-compiles
the rules, i.e. it rebuilds the engine from its registered rules exactly as
construction does. -/
def reset (fuel : Nat) (e : Engine) : Except String Engine :=
  compileAll fuel e.rules

-- ===========================================================================
-- The run loop, engine.py lines 395-407
-- ===========================================================================

/-- The body of `KnowledgeEngine.run` with `n` remaining iterations of the
`while steps < 1000` loop: pop an activation (stop when the agenda is
empty), invoke its action — modelled by `env`, which yields the facts the
action declares re-entrantly; an action that raises is caught and logged,
i.e. declares nothing — and continue.  Returns the final state and the
popped activations in firing order. -/
def runAux (env : String → List FactV → List FactV) (pf : Nat) :
    Nat → Engine → Engine × List ActivationV
  | 0, e => (e, [])
  | n + 1, e =>
    match popAgenda e.agenda with
    | none => (e, [])
    | some (act, ag) =>
      let e1 := { e with agenda := ag }
      let e2 := (env act.ruleName act.facts).foldl
        (fun acc f => declare pf acc f) e1
      let res := runAux env pf n e2
      (res.1, act :: res.2)

/-- `KnowledgeEngine.run`: at most 1000 iterations. -/
def run (env : String → List FactV → List FactV) (pf : Nat) (e : Engine) :
    Engine × List ActivationV :=
  runAux env pf 1000 e

-- ===========================================================================
-- Specification-side predicates used to state the claims
-- ===========================================================================

/-- Value identity in the sense of the node-sharing claim: literals are
identical when equal, binding references when their names match. -/
def claimValIdent : PyVal → PyVal → Bool
  | .binding _ n1, .binding _ n2 => n1 == n2
  | v1, v2 => v1 == v2

/-- The (field, op, value) signature of an arena node, when it is an alpha
node. -/
def alphaSig (e : Engine) (c : Nat) : Option (String × String × PyVal) :=
  match (e.getNode c).kind with
  | .alphaN f o v => some (f, o, v)
  | _ => none

/-- Two children are duplicate alpha nodes in the sense of the claim:
both alpha, same field and operator, values identical with binding
references compared by name. -/
def dupAlphaClaim (e : Engine) (c1 c2 : Nat) : Bool :=
  match alphaSig e c1, alphaSig e c2 with
  | some s1, some s2 =>
    s1.1 == s2.1 && s1.2.1 == s2.2.1 && claimValIdent s1.2.2 s2.2.2
  | _, _ => false

/-- Two children are duplicate alpha nodes under Python equality, the
relation the sharing search of the compiler actually tests. -/
def dupAlphaPy (e : Engine) (c1 c2 : Nat) : Bool :=
  match alphaSig e c1, alphaSig e c2 with
  | some s1, some s2 =>
    s1.1 == s2.1 && s1.2.1 == s2.2.1 && pyEq s1.2.2 s2.2.2
  | _, _ => false

/-- Some node of the engine has two alpha children with identical
(field, op, value) in the sense of the claim (bindings by name). -/
def hasDupAlphaChildren (e : Engine) : Bool :=
  (List.range e.arena.length).any (fun nid =>
    !(decide ((e.getNode nid).children.Pairwise
      (fun c1 c2 => dupAlphaClaim e c1 c2 = false))))

/-- The sharing invariant the code maintains: under any parent, no two
(positions of) alpha children carry the same field, operator and
Python-equal value. -/
def SharingInv (e : Engine) : Prop :=
  ∀ nid : Nat, (e.getNode nid).children.Pairwise
    (fun c1 c2 => dupAlphaPy e c1 c2 = false)

/-- Child indices always point into the arena. -/
def WfChildren (e : Engine) : Prop :=
  ∀ nid : Nat, ∀ c ∈ (e.getNode nid).children, c < e.arena.length

/-- A quiet engine: no fact has entered the network and nothing is pending.
This holds throughout compilation, which precedes every `declare`. -/
def Quiet (e : Engine) : Prop :=
  (∀ i : Nat, (e.getNode i).rightMemory = [] ∧ (e.getNode i).rightIndex = []
    ∧ (e.getNode i).items = []) ∧ e.agenda.activations = []

/-- The join key of a token at a hash node: the indexed ancestor fact
looked up with the absent-default `getattr`. -/
def tokenLeftKey (li : Nat) (lf : String) (t : TokenV) : Option PyVal :=
  (t.getFactByIndex li).map (fun tf => getattrD tf lf)

/-- The left-index invariant of a hash node: every bucket holds exactly
tokens whose join key is the bucket key. -/
def LeftIndexInv (li : Nat) (lf : String) (node : Node) : Prop :=
  ∀ kb ∈ node.leftIndex, ∀ t ∈ kb.2, tokenLeftKey li lf t = some kb.1

/-- The right-index invariant of a hash node: every bucket holds exactly
facts whose join key (under the absent-default `getattr`) is the bucket
key. -/
def RightIndexInv (rf : String) (node : Node) : Prop :=
  ∀ kb ∈ node.rightIndex, ∀ f ∈ kb.2, getattrD f rf = kb.1

/-- A hash index models a Python dict: its keys are pairwise distinct under
Python equality.  `indexAdd` always maintains this. -/
def IndexKeysDistinct {α : Type} (idx : List (PyVal × List α)) : Prop :=
  idx.Pairwise (fun a b => pyEq a.1 b.1 = false)

/-- The ordering the agenda maintains: strictly higher priority first, and
within a priority, earlier enqueue (smaller ghost `seq`) first. -/
def actR (a b : ActivationV) : Prop :=
  b.priority < a.priority ∨ (a.priority = b.priority ∧ a.seq < b.seq)

/-- The agenda invariant: the list is in stable descending order and every
ghost sequence number is below the counter. -/
def AgendaInv (ag : AgendaV) : Prop :=
  ag.activations.Pairwise actR ∧ ∀ x ∈ ag.activations, x.seq < ag.counter

/-- Agendas reachable from a given one by a sequence of enqueues; every
agenda change performed by propagation has this shape. -/
inductive AgendaReach : AgendaV → AgendaV → Prop where
  | refl (ag : AgendaV) : AgendaReach ag ag
  | step (ag ag2 : AgendaV) (rn : String) (sal : Int) (facts : List FactV) :
      AgendaReach ag ag2 → AgendaReach ag (addActivation ag2 rn sal facts)

/-- Equivalence of constraint maps up to binding object ids: same keys in
the same order, and values equal except that binding references need only
agree on their names. -/
def valEquivUpToId : PyVal → PyVal → Bool
  | .binding _ n1, .binding _ n2 => n1 == n2
  | v1, v2 => v1 == v2

/-- Pointwise `valEquivUpToId` on constraint lists with equal keys. -/
def constraintsEquivUpToId :
    List (String × PyVal) → List (String × PyVal) → Bool
  | [], [] => true
  | (k1, v1) :: r1, (k2, v2) :: r2 =>
    k1 == k2 && valEquivUpToId v1 v2 && constraintsEquivUpToId r1 r2
  | _, _ => false

/-- Structural agreement of two engine states: equal arena length, equal
node kinds and children everywhere, equal type-node map and dummy children.
Propagation changes only memories and the agenda, never the structure. -/
def ShapeEq (e1 e2 : Engine) : Prop :=
  e2.arena.length = e1.arena.length
  ∧ (∀ i : Nat, (e2.getNode i).kind = (e1.getNode i).kind
      ∧ (e2.getNode i).children = (e1.getNode i).children)
  ∧ e2.reteRoot = e1.reteRoot
  ∧ e2.dummyChildren = e1.dummyChildren

/-- Type-node map entries point into the arena. -/
def WfRoot (e : Engine) : Prop :=
  ∀ p ∈ e.reteRoot, p.2 < e.arena.length

/-- The invariant the compiler maintains: children and the type-node map
point into the arena, alpha children are shared under Python equality, and
the network is quiet (no fact has been declared yet). -/
def CompileInv (e : Engine) : Prop :=
  WfChildren e ∧ WfRoot e ∧ SharingInv e ∧ Quiet e

-- ===========================================================================
-- Concrete fixtures for counterexamples and witnesses
-- ===========================================================================

/-- A two-pattern rule over schemas A and B with no constraints. -/
def ruleM1 : RuleDef :=
  { name := "m1", salience := 0, patterns :=
    [{ cls := "A", constraints := [] }, { cls := "B", constraints := [] }] }

/-- A second two-pattern rule, over schemas C and D. -/
def ruleM2 : RuleDef :=
  { name := "m2", salience := 0, patterns :=
    [{ cls := "C", constraints := [] }, { cls := "D", constraints := [] }] }

/-- A single-pattern rule constraining field x with the binding `MATCH.c`
(object id 1). -/
def ruleB1 : RuleDef :=
  { name := "r1", salience := 0, patterns :=
    [{ cls := "A", constraints := [("x", .binding 1 "c")] }] }

/-- The same rule text compiled again: a second access to `MATCH.c` yields
a fresh `Match` object (id 2) with the same name. -/
def ruleB2 : RuleDef :=
  { name := "r2", salience := 0, patterns :=
    [{ cls := "A", constraints := [("x", .binding 2 "c")] }] }

/-- A salience-0 rule over schema A whose action declares a B fact. -/
def ruleLow : RuleDef :=
  { name := "low", salience := 0, patterns :=
    [{ cls := "A", constraints := [] }] }

/-- A salience-10 rule over schema B. -/
def ruleHigh : RuleDef :=
  { name := "high", salience := 10, patterns :=
    [{ cls := "B", constraints := [] }] }

/-- An A fact. -/
def factA : FactV := { cls := "A", sups := [], fields := [] }

/-- A B fact. -/
def factB : FactV := { cls := "B", sups := [], fields := [] }

/-- The action environment of the priority counterexample: the action of
rule low declares a B fact; every other action declares nothing. -/
def envLowHigh (rn : String) (_ : List FactV) : List FactV :=
  if rn == "low" then [factB] else []

/-- The do-nothing action environment. -/
def envNop (_ : String) (_ : List FactV) : List FactV := []

/-- A fresh hash join node keyed on field k both sides. -/
def hashNodeK : Node := mkNode (.hashN 0 "k" "k")

/-- A fact whose field k is present and holds `None`. -/
def factKNone : FactV := { cls := "T", sups := [], fields := [("k", .vnone)] }

/-- A token whose indexed fact is `factKNone`. -/
def tokKNone : TokenV := .cons .root factKNone

/-- A fact lacking field k entirely. -/
def factNoK : FactV := { cls := "U", sups := [], fields := [] }

/-- A hash node whose left index holds one token in the `None` bucket (its
indexed fact lacks the key field) and whose right index holds one fact in
the `None` bucket (its key field is present with value `None`). -/
def hashNodeBoth : Node :=
  { (mkNode (.hashN 0 "k" "k")) with
      leftIndex := [(.vnone, [TokenV.cons .root factNoK])],
      rightIndex := [(.vnone, [factKNone])] }

/-- A fact lacking the constrained field height. -/
def factNoHeight : FactV :=
  { cls := "Person", sups := [], fields := [("age", .int 20)] }

/-- An engine that registers schema Base only (one type node, no rules). -/
def engineBaseOnly : Engine :=
  { (emptyEngine []) with
      reteRoot := [("Base", 0)],
      arena := [mkNode (.typeN "Base")] }

/-- A fact whose exact class Derived is a strict subclass of Base. -/
def factDerived : FactV := { cls := "Derived", sups := ["Base"], fields := [] }

/-- An agenda holding two activations in stable descending order. -/
def agendaTwo : AgendaV :=
  { activations :=
      [{ ruleName := "a", priority := 5, facts := [], seq := 0 },
       { ruleName := "b", priority := 3, facts := [], seq := 1 }],
    counter := 2 }

/-- An engine whose agenda is `agendaTwo`. -/
def engineTwo : Engine := { (emptyEngine []) with agenda := agendaTwo }

/-- An engine carrying two registered rules, used to exercise reset. -/
def engineRules : Engine := emptyEngine [ruleLow, ruleM1]

instance : DecidableRel actR := fun a b => by
  unfold actR; infer_instance

-- ===========================================================================
-- Small helper lemmas
-- ===========================================================================

/-- Python equality with `None` on the left holds only for `None`. -/
theorem pyEq_vnone_iff (k : PyVal) : pyEq k .vnone = true ↔ k = .vnone := by
  cases k <;> simp [pyEq]

/-- A successful bucket lookup comes from an entry whose key is
Python-equal to the request. -/
theorem indexFind_mem {α : Type} (idx : List (PyVal × List α)) (key : PyVal)
    (xs : List α) (h : indexFind idx key = some xs) :
    ∃ k, (k, xs) ∈ idx ∧ pyEq k key = true := by
  induction idx with
  | nil => simp [indexFind] at h
  | cons kb rest ih =>
    rw [indexFind] at h
    by_cases hk : pyEq kb.1 key = true
    · refine ⟨kb.1, ?_, hk⟩
      simp [hk] at h
      simp [← h]
    · simp [hk] at h
      obtain ⟨k, hmem, hkeq⟩ := ih h
      exact ⟨k, List.mem_cons_of_mem _ hmem, hkeq⟩

/-- The run loop pops at most as many activations as it has iterations. -/
theorem runAux_length_le (env : String → List FactV → List FactV) (pf : Nat) :
    ∀ (n : Nat) (e : Engine), ((runAux env pf n e).2).length ≤ n := by
  intro n
  induction n with
  | zero => intro e; simp [runAux]
  | succ m ih =>
    intro e
    rw [runAux]
    cases hp : popAgenda e.agenda with
    | none => simp
    | some p =>
      simp only [List.length_cons]
      exact Nat.succ_le_succ (ih _)

/-- The congruence behind variable identity: the join-key scan of the
compiler depends only on the names of binding references, never on the
identity of the `Match` objects carrying them. -/
theorem scanJoin_equivUpToId (i : Nat) :
    ∀ (c1 c2 : List (String × PyVal)) (kv : List (String × Nat × String)),
      constraintsEquivUpToId c1 c2 = true →
        scanJoin i kv c1 = scanJoin i kv c2 := by
  intro c1
  induction c1 with
  | nil =>
    intro c2 kv h
    cases c2 with
    | nil => rfl
    | cons b r2 => simp [constraintsEquivUpToId] at h
  | cons a r1 ih =>
    intro c2 kv h
    cases c2 with
    | nil => simp [constraintsEquivUpToId] at h
    | cons b r2 =>
      obtain ⟨k1, v1⟩ := a
      obtain ⟨k2, v2⟩ := b
      rw [constraintsEquivUpToId] at h
      simp only [Bool.and_eq_true, beq_iff_eq] at h
      obtain ⟨⟨hk, hv⟩, hrest⟩ := h
      subst hk
      cases v1 <;> cases v2 <;> simp [valEquivUpToId] at hv
      case int.int n m => subst hv; simp [scanJoin]; exact ih r2 kv hrest
      case str.str s1 s2 => subst hv; simp [scanJoin]; exact ih r2 kv hrest
      case vnone.vnone => simp [scanJoin]; exact ih r2 kv hrest
      case binding.binding i1 n1 i2 n2 =>
        subst hv
        rw [scanJoin, scanJoin]
        cases hd : dictGet kv n1 with
        | some lw => simp [hd]
        | none => simp [hd]; exact ih r2 _ hrest

-- ===========================================================================
-- Claim C1
-- ===========================================================================

/-- Claim C1 (code bug, evaluated at the failing input): compiling the two
multi-pattern rules m1 and m2 triggers the dummy root once per rule over
ALL of its beta children, so the first beta node of rule m1 (arena index 3)
ends construction with the empty root token twice in its left memory, while
the claim and the spec require exactly one; the first beta of the
last-compiled rule m2 (arena index 7) holds it once. -/
theorem c1_first_beta_double_root :
    (compileAll 5 [ruleM1, ruleM2]).toOption.map
      (fun e => ((e.getNode 3).leftMemory, (e.getNode 7).leftMemory))
      = some ([.root, .root], [.root]) := by decide

-- ===========================================================================
-- Claim C4
-- ===========================================================================

/-- Claim C4, counterexample: an alpha node whose stored value is a binding
reference tests `false` on a fact lacking the constrained field (the source
checks `hasattr` before the `Match` shortcut), while the claim says the
test returns true unconditionally. -/
theorem c4_counterexample :
    alphaTest "height" "eq" (.binding 7 "h") factNoHeight = false := by
  decide

/-- Claim C4 as amended: for a binding-valued alpha node the test succeeds
exactly when the fact has the constrained field, whatever the field holds;
the real comparison is deferred to the join layer, but a fact lacking the
field fails the test. -/
theorem c4_binding_test_iff_hasattr (f : FactV) (field op : String)
    (i : Nat) (x : String) :
    alphaTest field op (.binding i x) f = (getattrOpt f field).isSome := by
  cases h : getattrOpt f field <;> simp [alphaTest, h]

-- ===========================================================================
-- Claim C5
-- ===========================================================================

/-- Claim C5, counterexample: a left token whose indexed fact has the join
field PRESENT with value `None` is indexed in the same bucket as the absent
key, so a right fact that LACKS the field joins with it — contradicting the
claim that absent-key entries never join with an entry whose key field is
present. -/
theorem c5_counterexample :
    (hashRightUpdate "k" (hashLeftUpdate 0 "k" hashNodeK tokKNone).1
      factNoK).2 = [tokKNone]
    ∧ getattrOpt factKNone "k" = some .vnone
    ∧ getattrOpt factNoK "k" = none := by decide

/-- Python equality is reflexive on the value kinds of this model. -/
theorem pyEq_refl (a : PyVal) : pyEq a a = true := by
  cases a <;> simp [pyEq]

/-- Python equality is symmetric. -/
theorem pyEq_symm (a b : PyVal) (h : pyEq a b = true) : pyEq b a = true := by
  cases a <;> cases b <;> simp_all [pyEq]

/-- Python equality is transitive. -/
theorem pyEq_trans (a b c : PyVal) (h1 : pyEq a b = true)
    (h2 : pyEq b c = true) : pyEq a c = true := by
  cases a <;> cases b <;> cases c <;> simp_all [pyEq]

/-- In an index with pairwise distinct keys, a bucket containing a key
equal to the request is the bucket the lookup finds. -/
theorem indexFind_eq_of_mem_distinct {α : Type}
    (idx : List (PyVal × List α)) (k : PyVal) (xs : List α) (key : PyVal)
    (hdis : IndexKeysDistinct idx) (hmem : (k, xs) ∈ idx)
    (hkey : pyEq k key = true) : indexFind idx key = some xs := by
  induction idx with
  | nil => simp at hmem
  | cons kb rest ih =>
    obtain ⟨hhead, htail⟩ := List.pairwise_cons.mp hdis
    rw [indexFind]
    rcases List.mem_cons.mp hmem with heq | hrest
    · rw [← heq]
      rw [if_pos hkey]
    · by_cases hk0 : pyEq kb.1 key = true
      · exfalso
        have h1 : pyEq key k = true := pyEq_symm _ _ hkey
        have h2 : pyEq kb.1 k = true := pyEq_trans _ _ _ hk0 h1
        have h3 : pyEq kb.1 k = false := hhead (k, xs) hrest
        rw [h3] at h2
        exact Bool.noConfusion h2
      · rw [if_neg hk0]
        exact ih htail hrest

/-- Appending to a bucket and then looking the key up yields the old bucket
extended by the new element (both operations land on the first bucket whose
key is Python-equal to the request, or on a fresh final bucket). -/
theorem indexFind_indexAdd_self {α : Type} (idx : List (PyVal × List α))
    (key : PyVal) (x : α) :
    indexFind (indexAdd idx key x) key
      = some ((indexFind idx key).getD [] ++ [x]) := by
  induction idx with
  | nil => simp [indexAdd, indexFind, pyEq_refl key]
  | cons kb rest ih =>
    obtain ⟨k0, xs0⟩ := kb
    rw [indexAdd]
    by_cases hk : pyEq k0 key = true
    · rw [if_pos hk]
      simp [indexFind, hk]
    · rw [if_neg hk]
      simp [indexFind, hk, ih]

/-- Claim C5 as amended, both directions and both sides.  In a hash join
node whose indexes are consistent dicts: a right-activated fact lacking the
right join-key field lands in the `None` bucket and its join partners are
exactly the indexed tokens whose own key evaluates to `None` under the
absent-default `getattr`; symmetrically, a left-activated token whose
indexed fact lacks the left join-key field lands in the `None` bucket and
its join partners are exactly the indexed facts whose key evaluates to
`None`.  In particular, neither ever joins with an entry carrying any other
key value — but entries whose key field is present with value `None` do
qualify, as the counterexample shows. -/
theorem c5_absent_key_join (li : Nat) (lf rf : String) (node : Node)
    (hLinv : LeftIndexInv li lf node)
    (hLdis : IndexKeysDistinct node.leftIndex)
    (hRinv : RightIndexInv rf node)
    (hRdis : IndexKeysDistinct node.rightIndex) :
    (∀ f : FactV, getattrOpt f rf = none →
      indexFind (hashRightUpdate rf node f).1.rightIndex .vnone
        = some ((indexFind node.rightIndex .vnone).getD [] ++ [f])
      ∧ ∀ t : TokenV, t ∈ (hashRightUpdate rf node f).2
          ↔ ((∃ kb ∈ node.leftIndex, t ∈ kb.2)
              ∧ tokenLeftKey li lf t = some .vnone))
    ∧ (∀ (t : TokenV) (tf : FactV), t.getFactByIndex li = some tf →
        getattrOpt tf lf = none →
        indexFind (hashLeftUpdate li lf node t).1.leftIndex .vnone
          = some ((indexFind node.leftIndex .vnone).getD [] ++ [t])
        ∧ ∀ f : FactV, f ∈ (hashLeftUpdate li lf node t).2
            ↔ ((∃ kb ∈ node.rightIndex, f ∈ kb.2)
                ∧ getattrD f rf = .vnone)) := by
  constructor
  · intro f habs
    have hkey : getattrD f rf = .vnone := by simp [getattrD, habs]
    constructor
    · rw [hashRightUpdate]
      simp only [hkey]
      exact indexFind_indexAdd_self _ _ _
    · intro t
      constructor
      · intro ht
        rw [hashRightUpdate] at ht
        simp only [hkey] at ht
        cases hfind : indexFind node.leftIndex .vnone with
        | none => rw [hfind] at ht; simp at ht
        | some xs =>
          rw [hfind] at ht
          simp only [Option.getD_some] at ht
          obtain ⟨k, hmem, hke⟩ := indexFind_mem _ _ _ hfind
          have hkn : k = .vnone := (pyEq_vnone_iff k).mp hke
          subst hkn
          exact ⟨⟨(.vnone, xs), hmem, ht⟩, hLinv (.vnone, xs) hmem t ht⟩
      · rintro ⟨⟨kb, hkb, htb⟩, hkeyt⟩
        have hkbv : kb.1 = PyVal.vnone := by
          have h1 := hLinv kb hkb t htb
          rw [hkeyt] at h1
          exact (Option.some_inj.mp h1).symm
        have hbmem : (kb.1, kb.2) ∈ node.leftIndex := hkb
        have hf : indexFind node.leftIndex .vnone = some kb.2 :=
          indexFind_eq_of_mem_distinct node.leftIndex kb.1 kb.2 .vnone
            hLdis hbmem (by rw [hkbv]; exact pyEq_refl _)
        rw [hashRightUpdate]
        simp only [hkey]
        rw [hf]
        exact htb
  · intro t tf hidx habs
    have hkey : getattrD tf lf = .vnone := by simp [getattrD, habs]
    constructor
    · rw [hashLeftUpdate, hidx]
      simp only [hkey]
      exact indexFind_indexAdd_self _ _ _
    · intro f
      constructor
      · intro hf
        rw [hashLeftUpdate, hidx] at hf
        simp only [hkey] at hf
        cases hfind : indexFind node.rightIndex .vnone with
        | none => rw [hfind] at hf; simp at hf
        | some xs =>
          rw [hfind] at hf
          simp only [Option.getD_some] at hf
          obtain ⟨k, hmem, hke⟩ := indexFind_mem _ _ _ hfind
          have hkn : k = .vnone := (pyEq_vnone_iff k).mp hke
          subst hkn
          exact ⟨⟨(.vnone, xs), hmem, hf⟩, hRinv (.vnone, xs) hmem f hf⟩
      · rintro ⟨⟨kb, hkb, hfb⟩, hkeyf⟩
        have hkbv : kb.1 = PyVal.vnone := by
          have h1 := hRinv kb hkb f hfb
          rw [hkeyf] at h1
          exact h1.symm
        have hbmem : (kb.1, kb.2) ∈ node.rightIndex := hkb
        have hf2 : indexFind node.rightIndex .vnone = some kb.2 :=
          indexFind_eq_of_mem_distinct node.rightIndex kb.1 kb.2 .vnone
            hRdis hbmem (by rw [hkbv]; exact pyEq_refl _)
        rw [hashLeftUpdate, hidx]
        simp only [hkey]
        rw [hf2]
        exact hfb

/-- Claim C5, witness: a hash node seeded on both sides — a token whose
indexed fact lacks the key field in the left `None` bucket, and a fact
whose key field is present with value `None` in the right `None` bucket —
satisfies all four index hypotheses, and the theorem yields the two-sided
exact-join characterisation at it. -/
theorem c5_join_witness :
    LeftIndexInv 0 "k" hashNodeBoth
    ∧ IndexKeysDistinct hashNodeBoth.leftIndex
    ∧ RightIndexInv "k" hashNodeBoth
    ∧ IndexKeysDistinct hashNodeBoth.rightIndex
    ∧ ((∀ f : FactV, getattrOpt f "k" = none →
        indexFind (hashRightUpdate "k" hashNodeBoth f).1.rightIndex .vnone
          = some ((indexFind hashNodeBoth.rightIndex .vnone).getD [] ++ [f])
        ∧ ∀ t : TokenV, t ∈ (hashRightUpdate "k" hashNodeBoth f).2
            ↔ ((∃ kb ∈ hashNodeBoth.leftIndex, t ∈ kb.2)
                ∧ tokenLeftKey 0 "k" t = some .vnone))
      ∧ (∀ (t : TokenV) (tf : FactV), t.getFactByIndex 0 = some tf →
          getattrOpt tf "k" = none →
          indexFind (hashLeftUpdate 0 "k" hashNodeBoth t).1.leftIndex .vnone
            = some ((indexFind hashNodeBoth.leftIndex .vnone).getD [] ++ [t])
          ∧ ∀ f : FactV, f ∈ (hashLeftUpdate 0 "k" hashNodeBoth t).2
              ↔ ((∃ kb ∈ hashNodeBoth.rightIndex, f ∈ kb.2)
                  ∧ getattrD f "k" = .vnone))) :=
  ⟨by unfold LeftIndexInv; decide,
   by unfold IndexKeysDistinct; decide,
   by unfold RightIndexInv; decide,
   by unfold IndexKeysDistinct; decide,
   c5_absent_key_join 0 "k" "k" hashNodeBoth
     (by unfold LeftIndexInv; decide)
     (by unfold IndexKeysDistinct; decide)
     (by unfold RightIndexInv; decide)
     (by unfold IndexKeysDistinct; decide)⟩

-- ===========================================================================
-- Claim C6
-- ===========================================================================

/-- Claim C6, counterexample: two separate accesses `MATCH.foo` create two
`Match` objects with the same name that are NOT Python-equal (no `__eq__`,
so identity), refuting that two binding references are equal if and only if
their names match. -/
theorem c6_counterexample :
    pyEq (matchAttr MATCH "foo" 1) (matchAttr MATCH "foo" 2) = false
    ∧ bindingName (matchAttr MATCH "foo" 1)
      = bindingName (matchAttr MATCH "foo" 2) := by decide

/-- Claim C6 as amended: attribute access on `MATCH` produces a binding
reference carrying that attribute name; the compiler treats two binding
references with the same name as the same variable (its join-key scan
depends only on names, not on object identity); but Python equality on
binding references is object identity, so references are `==` exactly when
they are the same object, not when their names match. -/
theorem c6_match_bindings :
    (∀ (m : PyVal) (a : String) (i : Nat),
      bindingName (matchAttr m a i) = some a)
    ∧ (∀ (i : Nat) (kv : List (String × Nat × String))
        (c1 c2 : List (String × PyVal)),
        constraintsEquivUpToId c1 c2 = true →
          scanJoin i kv c1 = scanJoin i kv c2)
    ∧ (∀ (i j : Nat) (a b : String),
        pyEq (.binding i a) (.binding j b) = true ↔ i = j) := by
  refine ⟨fun m a i => rfl, fun i kv c1 c2 h => ?_, fun i j a b => ?_⟩
  · exact scanJoin_equivUpToId i c1 c2 kv h
  · simp [pyEq]

/-- Claim C6, witness: the amended statement applied at concrete inputs —
`MATCH.foo` is named foo; two same-named bindings with different object ids
drive the join-key scan identically; and Python equality tracks object
identity. -/
theorem c6_witness :
    bindingName (matchAttr MATCH "foo" 3) = some "foo"
    ∧ scanJoin 1 [] [("x", .binding 1 "c")] = scanJoin 1 [] [("x", .binding 2 "c")]
    ∧ (pyEq (.binding 1 "c") (.binding 2 "c") = true ↔ (1 : Nat) = 2) :=
  ⟨c6_match_bindings.1 MATCH "foo" 3,
   c6_match_bindings.2.1 1 [] [("x", .binding 1 "c")] [("x", .binding 2 "c")]
     (by decide),
   c6_match_bindings.2.2 1 2 "c" "c"⟩

-- ===========================================================================
-- Claim C7
-- ===========================================================================

/-- Claim C7, counterexample: on the key a__b__gt, whose field name itself
contains the separator, the compiler raises (two-element unpacking of a
three-part split) instead of performing the rightmost split the claim
describes. -/
theorem c7_counterexample :
    parseKey "a__b__gt" = .error "ValueError: too many values to unpack"
    ∧ parseKeyRightmost "a__b__gt" = ("a__b", "gt") :=
  ⟨rfl, rfl⟩

/-- Claim C7 as amended: for keys whose split on `__` has at most two parts
— i.e. field names without the separator — the compiler agrees with the
rightmost-split reading (no separator means operator eq); a key whose split
has three or more parts is rejected with a ValueError rather than split on
its rightmost separator. -/
theorem c7_split_behaviour (k : String) :
    ((splitUU k.data).length ≤ 2 → parseKey k = .ok (parseKeyRightmost k))
    ∧ (3 ≤ (splitUU k.data).length →
        parseKey k = .error "ValueError: too many values to unpack") := by
  constructor
  · intro hle
    rcases hs : splitUU k.data with _ | ⟨f, _ | ⟨o, _ | ⟨p, rest⟩⟩⟩
    · simp [parseKey, parseKeyRightmost, hasUU, hs]
    · simp [parseKey, parseKeyRightmost, hasUU, hs]
    · simp [parseKey, parseKeyRightmost, hasUU, hs, parseKeyRightmost.joinUU]
    · rw [hs] at hle; simp at hle
  · intro hge
    rcases hs : splitUU k.data with _ | ⟨f, _ | ⟨o, _ | ⟨p, rest⟩⟩⟩
    · rw [hs] at hge; simp at hge
    · rw [hs] at hge; simp at hge
    · rw [hs] at hge; simp at hge
    · simp [parseKey, hasUU, hs]

/-- Claim C7, witness: the amended theorem applied to the ordinary key
age__gte, which has exactly one separator. -/
theorem c7_witness :
    (splitUU "age__gte".data).length ≤ 2
    ∧ parseKey "age__gte" = .ok (parseKeyRightmost "age__gte") :=
  ⟨by decide, (c7_split_behaviour "age__gte").1 (by decide)⟩

-- ===========================================================================
-- Claim C9
-- ===========================================================================

/-- Claim C9: every call to run() invokes at most 1000 actions and then
returns normally, whatever the rule actions declare re-entrantly; reaching
the cap is just the loop bound being exhausted, not an error. -/
theorem c9_step_cap (env : String → List FactV → List FactV) (pf : Nat)
    (e : Engine) : ((run env pf e).2).length ≤ 1000 :=
  runAux_length_le env pf 1000 e

-- ===========================================================================
-- Claim C10
-- ===========================================================================

/-- Claim C10: declare dispatches on the exact runtime class; when that
class is not a key of the type-node map, declare returns the engine
unchanged — no node memory, no agenda entry, nothing — even if the class is
a strict subclass of a registered schema. -/
theorem c10_declare_exact_class (pf : Nat) (e : Engine) (f : FactV)
    (h : e.reteRoot.find? (fun p => p.1 == f.cls) = none) :
    declare pf e f = e := by
  simp [declare, h]

/-- Claim C10, witness: an engine registering schema Base and a fact of the
strict subclass Derived — `isinstance` would accept it at the type node,
yet declare leaves the engine untouched because the exact class is not a
key. -/
theorem c10_witness :
    declare 5 engineBaseOnly factDerived = engineBaseOnly
    ∧ isInstance factDerived "Base" = true :=
  ⟨c10_declare_exact_class 5 engineBaseOnly factDerived (by decide),
   by decide⟩

-- ===========================================================================
-- Agenda ordering lemmas (claim C3)
-- ===========================================================================

/-- Membership through ordered insertion. -/
theorem mem_insertDesc (a x : ActivationV) :
    ∀ l : List ActivationV, x ∈ insertDesc a l ↔ x = a ∨ x ∈ l := by
  intro l
  induction l with
  | nil => simp [insertDesc]
  | cons b rest ih =>
    rw [insertDesc]
    by_cases hle : a.priority ≤ b.priority
    · simp only [if_pos hle, List.mem_cons, ih]
      tauto
    · simp only [if_neg hle, List.mem_cons]

/-- Ordered insertion preserves the stable descending order, provided the
inserted element is enqueue-later than every equal-priority element. -/
theorem insertDesc_pairwise (a : ActivationV) :
    ∀ l : List ActivationV, l.Pairwise actR →
      (∀ x ∈ l, x.priority = a.priority → x.seq < a.seq) →
      (insertDesc a l).Pairwise actR := by
  intro l
  induction l with
  | nil => intro _ _; simp [insertDesc]
  | cons b rest ih =>
    intro hp hcond
    obtain ⟨hb, hrest⟩ := List.pairwise_cons.mp hp
    rw [insertDesc]
    by_cases hle : a.priority ≤ b.priority
    · rw [if_pos hle]
      apply List.pairwise_cons.mpr
      refine ⟨?_, ih hrest (fun x hx => hcond x (List.mem_cons_of_mem _ hx))⟩
      intro y hy
      rcases (mem_insertDesc a y rest).mp hy with rfl | hyr
      · rcases lt_or_eq_of_le hle with hlt | heq
        · exact Or.inl hlt
        · exact Or.inr ⟨heq.symm, hcond b (List.mem_cons_self _ _) heq.symm⟩
      · exact hb y hyr
    · rw [if_neg hle]
      have hba : b.priority < a.priority := lt_of_not_le hle
      apply List.pairwise_cons.mpr
      refine ⟨?_, hp⟩
      intro y hy
      rcases List.mem_cons.mp hy with rfl | hyr
      · exact Or.inl hba
      · rcases hb y hyr with h | ⟨heq, _⟩
        · exact Or.inl (lt_trans h hba)
        · exact Or.inl (heq ▸ hba)

/-- Folding ordered insertion over a list whose equal-priority elements are
listed in enqueue order yields a stable descending list. -/
theorem foldl_insertDesc_pairwise :
    ∀ (l acc : List ActivationV), acc.Pairwise actR →
      (∀ a ∈ l, ∀ x ∈ acc, x.priority = a.priority → x.seq < a.seq) →
      l.Pairwise (fun a b => a.priority = b.priority → a.seq < b.seq) →
      (l.foldl (fun acc a => insertDesc a acc) acc).Pairwise actR := by
  intro l
  induction l with
  | nil => intro acc h1 _ _; simpa using h1
  | cons a rest ih =>
    intro acc h1 h2 h3
    rw [List.foldl_cons]
    obtain ⟨ha, hrest⟩ := List.pairwise_cons.mp h3
    apply ih
    · exact insertDesc_pairwise a acc h1
        (fun x hx hpe => h2 a (List.mem_cons_self _ _) x hx hpe)
    · intro b hb x hx hpe
      rcases (mem_insertDesc a x acc).mp hx with rfl | hxacc
      · exact ha b hb hpe
      · exact h2 b (List.mem_cons_of_mem _ hb) x hxacc hpe
    · exact hrest

/-- Membership through the fold of ordered insertions. -/
theorem mem_foldl_insertDesc (x : ActivationV) :
    ∀ (l acc : List ActivationV),
      x ∈ l.foldl (fun acc a => insertDesc a acc) acc ↔ x ∈ l ∨ x ∈ acc := by
  intro l
  induction l with
  | nil => intro acc; simp
  | cons a rest ih =>
    intro acc
    rw [List.foldl_cons, ih, mem_insertDesc]
    simp [List.mem_cons]
    tauto

/-- The stable sort is a permutation in the membership sense. -/
theorem mem_stableSortDesc (x : ActivationV) (l : List ActivationV) :
    x ∈ stableSortDesc l ↔ x ∈ l := by
  rw [stableSortDesc, mem_foldl_insertDesc]
  simp

/-- Enqueuing preserves the agenda invariant. -/
theorem addActivation_inv (ag : AgendaV) (rn : String) (sal : Int)
    (facts : List FactV) (h : AgendaInv ag) :
    AgendaInv (addActivation ag rn sal facts) := by
  obtain ⟨hp, hs⟩ := h
  constructor
  · apply foldl_insertDesc_pairwise _ [] (List.Pairwise.nil)
      (by intro a _ x hx; simp at hx)
    apply List.pairwise_append.mpr
    refine ⟨?_, ?_, ?_⟩
    · exact hp.imp (fun hab hpe => by
        rcases hab with h1 | ⟨_, h2⟩
        · rw [hpe] at h1; exact absurd h1 (lt_irrefl _)
        · exact h2)
    · simp
    · intro a ha b hb _
      simp at hb
      rw [hb]
      exact hs a ha
  · intro x hx
    rw [addActivation] at hx
    simp only [] at hx
    rcases List.mem_append.mp ((mem_stableSortDesc x _).mp hx) with h1 | h2
    · exact Nat.lt_succ_of_lt (hs x h1)
    · simp at h2
      rw [h2]
      exact Nat.lt_succ_self _

/-- Reachability composes. -/
theorem agendaReach_trans {a b c : AgendaV} (h1 : AgendaReach a b)
    (h2 : AgendaReach b c) : AgendaReach a c := by
  induction h2 with
  | refl => exact h1
  | step ag2 rn sal facts _ ih => exact .step _ _ _ _ _ ih

/-- Reachability through a fold whose every step only enqueues. -/
theorem agendaReach_foldl {β : Type} (g : Engine → β → Engine)
    (h : ∀ (acc : Engine) (b : β), AgendaReach acc.agenda (g acc b).agenda) :
    ∀ (l : List β) (e : Engine), AgendaReach e.agenda (l.foldl g e).agenda := by
  intro l
  induction l with
  | nil => intro e; exact .refl _
  | cons b rest ih =>
    intro e
    rw [List.foldl_cons]
    exact agendaReach_trans (h e b) (ih (g e b))

/-- The counter never decreases along reachability. -/
theorem agendaReach_counter_le {a b : AgendaV} (h : AgendaReach a b) :
    a.counter ≤ b.counter := by
  induction h with
  | refl => exact le_refl _
  | step ag2 rn sal facts _ ih =>
    exact le_trans ih (Nat.le_succ _)

/-- An activation present after reachability was either already present or
enqueued with a fresh (at least the starting counter) sequence number. -/
theorem agendaReach_mem {a b : AgendaV} (h : AgendaReach a b) :
    ∀ x ∈ b.activations, x ∈ a.activations ∨ a.counter ≤ x.seq := by
  induction h with
  | refl => intro x hx; exact Or.inl hx
  | step ag2 rn sal facts h2 ih =>
    intro x hx
    rw [addActivation] at hx
    simp only [] at hx
    rcases List.mem_append.mp ((mem_stableSortDesc x _).mp hx) with h1 | hnew
    · exact ih x h1
    · simp at hnew
      rw [hnew]
      exact Or.inr (agendaReach_counter_le h2)

/-- The agenda invariant survives reachability. -/
theorem agendaReach_inv {a b : AgendaV} (h : AgendaReach a b)
    (hinv : AgendaInv a) : AgendaInv b := by
  induction h with
  | refl => exact hinv
  | step ag2 rn sal facts _ ih => exact addActivation_inv _ _ _ _ ih

/-- Variant of `agendaReach_foldl` that lets the starting agenda be given
through a definitional equation, easing unification at `setNode` sites. -/
theorem agendaReach_foldl2 {β : Type} (g : Engine → β → Engine)
    (h : ∀ (acc : Engine) (b : β), AgendaReach acc.agenda (g acc b).agenda)
    (l : List β) (e : Engine) (ag : AgendaV) (hag : ag = e.agenda) :
    AgendaReach ag (l.foldl g e).agenda :=
  hag ▸ agendaReach_foldl g h l e

/-- Every agenda change performed by one step of the propagation body is a
sequence of enqueues. -/
theorem dispatchBody_agendaReach
    (recur : Engine → Nat → Signal → Engine)
    (hr : ∀ (e : Engine) (n : Nat) (s : Signal),
      AgendaReach e.agenda (recur e n s).agenda)
    (e : Engine) (nid : Nat) (node : Node) (sig : Signal) :
    AgendaReach e.agenda (dispatchBody recur e nid node sig).agenda := by
  obtain ⟨k, ch, itm, lm, rm, lidx, ridx⟩ := node
  cases k <;> cases sig <;>
    simp only [dispatchBody] <;>
    first
    | exact .refl _
    | skip
  case typeN.factS cls f =>
    by_cases hi : isInstance f cls
    · rw [if_pos hi]
      refine agendaReach_foldl2 _ ?_ _ _ _ rfl
      intro acc c
      exact hr acc c (.factS f)
    · rw [if_neg hi]
      exact .refl _
  case alphaN.factS field op value f =>
    by_cases ht : alphaTest field op value f
    · rw [if_pos ht]
      refine agendaReach_foldl2 _ ?_ _ _ _ rfl
      intro acc c
      exact hr acc c (.factS f)
    · rw [if_neg ht]
      exact .refl _
  case cartesianN.factS f =>
    refine agendaReach_foldl2 _ ?_ _ _ _ rfl
    intro acc t
    refine agendaReach_foldl2 _ ?_ _ _ _ rfl
    intro acc2 c
    exact hr acc2 c (.tokenS (.cons t f))
  case cartesianN.tokenS t =>
    refine agendaReach_foldl2 _ ?_ _ _ _ rfl
    intro acc f
    refine agendaReach_foldl2 _ ?_ _ _ _ rfl
    intro acc2 c
    exact hr acc2 c (.tokenS (.cons t f))
  case hashN.factS li lf rf f =>
    refine agendaReach_foldl2 _ ?_ _ _ _ rfl
    intro acc t
    refine agendaReach_foldl2 _ ?_ _ _ _ rfl
    intro acc2 c
    exact hr acc2 c (.tokenS (.cons t f))
  case hashN.tokenS li lf rf t =>
    refine agendaReach_foldl2 _ ?_ _ _ _ rfl
    intro acc f
    refine agendaReach_foldl2 _ ?_ _ _ _ rfl
    intro acc2 c
    exact hr acc2 c (.tokenS (.cons t f))
  case terminalN.factS rn sal f => exact .step _ _ _ _ _ (.refl _)
  case terminalN.tokenS rn sal t => exact .step _ _ _ _ _ (.refl _)

/-- Propagation only ever enqueues activations. -/
theorem dispatch_agendaReach :
    ∀ (fuel : Nat) (e : Engine) (nid : Nat) (sig : Signal),
      AgendaReach e.agenda (dispatch fuel e nid sig).agenda := by
  intro fuel
  induction fuel with
  | zero => intro e nid sig; exact .refl _
  | succ m ih =>
    intro e nid sig
    rw [dispatch]
    exact dispatchBody_agendaReach (dispatch m) ih e nid (e.getNode nid) sig

/-- Declaring a fact only ever enqueues activations. -/
theorem declare_agendaReach (pf : Nat) (e : Engine) (f : FactV) :
    AgendaReach e.agenda (declare pf e f).agenda := by
  rw [declare]
  cases h : e.reteRoot.find? (fun p => p.1 == f.cls) with
  | none => exact .refl _
  | some p => exact dispatch_agendaReach pf e p.2 (.factS f)

/-- Declaring a list of facts only ever enqueues activations. -/
theorem declareFold_agendaReach (pf : Nat) (fs : List FactV) (e : Engine) :
    AgendaReach e.agenda
      ((fs.foldl (fun acc f => declare pf acc f) e)).agenda :=
  agendaReach_foldl _ (fun acc f => declare_agendaReach pf acc f) fs e

/-- An empty pop means an empty agenda. -/
theorem popAgenda_none (ag : AgendaV) :
    popAgenda ag = none ↔ ag.activations = [] := by
  cases hl : ag.activations with
  | nil => simp [popAgenda, hl]
  | cons a rest => simp [popAgenda, hl]

/-- A successful pop removes exactly the front activation. -/
theorem popAgenda_some (ag : AgendaV) (act : ActivationV) (ag2 : AgendaV)
    (h : popAgenda ag = some (act, ag2)) :
    ag.activations = act :: ag2.activations ∧ ag2.counter = ag.counter := by
  cases hl : ag.activations with
  | nil => rw [popAgenda, hl] at h; simp at h
  | cons a rest =>
    rw [popAgenda, hl] at h
    simp only [Option.some_inj, Prod.mk.injEq] at h
    obtain ⟨h1, h2⟩ := h
    subst h1
    rw [← h2]
    exact ⟨rfl, rfl⟩

/-- Popping preserves the agenda invariant. -/
theorem popAgenda_inv (ag : AgendaV) (act : ActivationV) (ag2 : AgendaV)
    (h : popAgenda ag = some (act, ag2)) (hinv : AgendaInv ag) :
    AgendaInv ag2 := by
  obtain ⟨hacts, hcnt⟩ := popAgenda_some ag act ag2 h
  obtain ⟨hp, hs⟩ := hinv
  rw [hacts] at hp hs
  exact ⟨(List.pairwise_cons.mp hp).2,
    fun x hx => hcnt ▸ hs x (List.mem_cons_of_mem _ hx)⟩

/-- Every activation the run loop fires was either in the starting agenda
or was enqueued during the run with a sequence number at least the starting
counter. -/
theorem runAux_fired_mem (env : String → List FactV → List FactV) (pf : Nat) :
    ∀ (n : Nat) (e : Engine) (b : ActivationV),
      b ∈ (runAux env pf n e).2 →
        b ∈ e.agenda.activations ∨ e.agenda.counter ≤ b.seq := by
  intro n
  induction n with
  | zero => intro e b hb; simp [runAux] at hb
  | succ m ih =>
    intro e b hb
    rw [runAux] at hb
    cases hp : popAgenda e.agenda with
    | none => rw [hp] at hb; simp at hb
    | some p =>
      obtain ⟨act, ag2⟩ := p
      obtain ⟨hacts, hcnt⟩ := popAgenda_some e.agenda act ag2 hp
      rw [hp] at hb
      simp only [List.mem_cons] at hb
      rcases hb with rfl | hb2
      · exact Or.inl (hacts ▸ List.mem_cons_self _ _)
      · have hreach : AgendaReach ag2
            (((env act.ruleName act.facts).foldl
              (fun acc f => declare pf acc f)
              { e with agenda := ag2 })).agenda :=
          declareFold_agendaReach pf (env act.ruleName act.facts)
            { e with agenda := ag2 }
        rcases ih _ b hb2 with hmem | hseq
        · rcases agendaReach_mem hreach b hmem with h1 | h2
          · exact Or.inl (hacts ▸ List.mem_cons_of_mem _ h1)
          · exact Or.inr (hcnt ▸ h2)
        · exact Or.inr (le_trans (hcnt ▸ agendaReach_counter_le hreach) hseq)

/-- Under the agenda invariant, the activations the run loop fires respect
enqueue order within each priority, whatever the actions declare. -/
theorem runAux_fired_stable (env : String → List FactV → List FactV)
    (pf : Nat) :
    ∀ (n : Nat) (e : Engine), AgendaInv e.agenda →
      ((runAux env pf n e).2).Pairwise
        (fun a b => a.priority = b.priority → a.seq < b.seq) := by
  intro n
  induction n with
  | zero => intro e _; simp [runAux]
  | succ m ih =>
    intro e h
    rw [runAux]
    cases hp : popAgenda e.agenda with
    | none => simp
    | some p =>
      obtain ⟨act, ag2⟩ := p
      obtain ⟨hacts, hcnt⟩ := popAgenda_some e.agenda act ag2 hp
      simp only []
      have hinv2 : AgendaInv ag2 := popAgenda_inv e.agenda act ag2 hp h
      have hreach : AgendaReach ag2
          (((env act.ruleName act.facts).foldl
            (fun acc f => declare pf acc f)
            { e with agenda := ag2 })).agenda :=
        declareFold_agendaReach pf (env act.ruleName act.facts)
          { e with agenda := ag2 }
      apply List.pairwise_cons.mpr
      constructor
      · intro b hb hpe
        have hseqact : act.seq < e.agenda.counter :=
          h.2 act (hacts ▸ List.mem_cons_self _ _)
        rcases runAux_fired_mem env pf m _ b hb with hmem | hseq
        · rcases agendaReach_mem hreach b hmem with h1 | h2
          · have hr : actR act b := by
              have hpcons := h.1
              rw [hacts] at hpcons
              exact (List.pairwise_cons.mp hpcons).1 b h1
            rcases hr with hlt | ⟨_, hseqlt⟩
            · rw [hpe] at hlt; exact absurd hlt (lt_irrefl _)
            · exact hseqlt
          · exact lt_of_lt_of_le hseqact (hcnt ▸ h2)
        · have : e.agenda.counter ≤ b.seq := by
            calc e.agenda.counter = ag2.counter := hcnt.symm
              _ ≤ _ := agendaReach_counter_le hreach
              _ ≤ b.seq := hseq
          exact lt_of_lt_of_le hseqact this
      · exact ih _ (agendaReach_inv hreach hinv2)

/-- With actions that declare nothing, the run loop simply pops the agenda
front-to-back. -/
theorem runAux_noop_fired (env : String → List FactV → List FactV) (pf : Nat)
    (hnoop : ∀ rn fs, env rn fs = []) :
    ∀ (n : Nat) (e : Engine),
      (runAux env pf n e).2 = e.agenda.activations.take n := by
  intro n
  induction n with
  | zero => intro e; simp [runAux]
  | succ m ih =>
    intro e
    rw [runAux]
    cases hp : popAgenda e.agenda with
    | none =>
      rw [(popAgenda_none e.agenda).mp hp]
      simp
    | some p =>
      obtain ⟨act, ag2⟩ := p
      obtain ⟨hacts, _⟩ := popAgenda_some e.agenda act ag2 hp
      simp only [hnoop, List.foldl_nil]
      rw [ih]
      rw [hacts]
      simp

-- ===========================================================================
-- Claim C3
-- ===========================================================================

/-- Claim C3, counterexample: rule low (priority 0) fires first and its
action declares a B fact, which activates rule high (priority 10); the next
pop returns priority 10, so the popped priority sequence [0, 10] of this
run is not non-increasing. -/
theorem c3_counterexample :
    (compileAll 5 [ruleLow, ruleHigh]).toOption.map
      (fun e => ((run envLowHigh 5 (declare 5 e factA)).2.map
        (fun a => a.priority))) = some [0, 10]
    ∧ ¬ (([0, 10] : List Int).Pairwise (fun p q => q ≤ p)) := by
  constructor
  · decide
  · decide

/-- Claim C3 as amended: starting from an agenda satisfying the stable
descending invariant, (i) whatever the actions declare re-entrantly, the
popped activations of a run respect enqueue order within every priority
level, and (ii) when the actions enqueue nothing, the popped priority
sequence is non-increasing — re-entrant declares may make a later pop carry
a higher priority than an earlier one, as the counterexample shows. -/
theorem c3_priority_order (env : String → List FactV → List FactV)
    (pf : Nat) (e : Engine) (h : AgendaInv e.agenda) :
    ((run env pf e).2).Pairwise
      (fun a b => a.priority = b.priority → a.seq < b.seq)
    ∧ ((∀ rn fs, env rn fs = []) →
        ((run env pf e).2).Pairwise (fun a b => b.priority ≤ a.priority)) := by
  constructor
  · exact runAux_fired_stable env pf 1000 e h
  · intro hnoop
    rw [run, runAux_noop_fired env pf hnoop 1000 e]
    have hp : e.agenda.activations.Pairwise
        (fun a b => b.priority ≤ a.priority) :=
      h.1.imp (fun hab => by
        rcases hab with h1 | ⟨h2, _⟩
        · exact le_of_lt h1
        · exact le_of_eq h2.symm)
    exact hp.sublist (List.take_sublist _ _)

/-- Claim C3, witness: the amended theorem applied to a concrete engine
whose agenda holds a priority-5 and then a priority-3 activation, with
do-nothing actions. -/
theorem c3_witness :
    AgendaInv agendaTwo
    ∧ (((run envNop 5 engineTwo).2).Pairwise
        (fun a b => a.priority = b.priority → a.seq < b.seq)
      ∧ ((∀ rn fs, envNop rn fs = []) →
          ((run envNop 5 engineTwo).2).Pairwise
            (fun a b => b.priority ≤ a.priority))) :=
  ⟨by constructor
      · decide
      · decide,
   c3_priority_order envNop 5 engineTwo
     (by constructor
         · decide
         · decide)⟩

-- ===========================================================================
-- Arena access lemmas (claims C2 and C8)
-- ===========================================================================

/-- Reading after writing a node. -/
theorem getNode_setNode (e : Engine) (j : Nat) (n : Node) (i : Nat) :
    (e.setNode j n).getNode i
      = if j = i ∧ j < e.arena.length then n else e.getNode i := by
  simp only [Engine.setNode, Engine.getNode, List.getD_eq_getElem?_getD,
    List.getElem?_set]
  by_cases h1 : j = i
  · subst h1
    by_cases h2 : j < e.arena.length
    · simp [h2]
    · have hcond : ¬ (j = j ∧ j < e.arena.length) := fun hf => h2 hf.2
      simp only [h2, if_false, if_neg hcond]
      rw [List.getElem?_eq_none (Nat.le_of_not_lt h2)]
      simp
  · simp [h1]

/-- Writing a node keeps the arena length. -/
theorem setNode_length (e : Engine) (j : Nat) (n : Node) :
    (e.setNode j n).arena.length = e.arena.length := by
  simp [Engine.setNode]

/-- Reading after allocating a node. -/
theorem getNode_pushNode (e : Engine) (n : Node) (i : Nat) :
    ((e.pushNode n).1).getNode i
      = if i = e.arena.length then n else e.getNode i := by
  simp only [Engine.pushNode, Engine.getNode, List.getD_eq_getElem?_getD]
  by_cases h : i = e.arena.length
  · subst h
    rw [List.getElem?_concat_length]
    simp
  · rcases Nat.lt_or_ge i e.arena.length with hlt | hge
    · rw [List.getElem?_append_left hlt, if_neg h]
    · have h1 : (e.arena ++ [n])[i]? = none := by
        apply List.getElem?_eq_none
        simp only [List.length_append, List.length_cons, List.length_nil]
        exact Nat.succ_le_of_lt (Nat.lt_of_le_of_ne hge (Ne.symm h))
      have h2 : e.arena[i]? = none := List.getElem?_eq_none hge
      rw [h1, h2, if_neg h]

/-- Allocating a node grows the arena by one. -/
theorem pushNode_length (e : Engine) (n : Node) :
    ((e.pushNode n).1).arena.length = e.arena.length + 1 := by
  simp [Engine.pushNode]

/-- The index returned by an allocation. -/
theorem pushNode_idx (e : Engine) (n : Node) :
    (e.pushNode n).2 = e.arena.length := rfl

/-- Writing a node of the same kind leaves every alpha signature alone. -/
theorem alphaSig_setNode (e : Engine) (j : Nat) (n : Node)
    (hkind : n.kind = (e.getNode j).kind) (c : Nat) :
    alphaSig (e.setNode j n) c = alphaSig e c := by
  rw [alphaSig, alphaSig, getNode_setNode]
  by_cases h : j = c ∧ j < e.arena.length
  · rw [if_pos h, hkind, h.1]
  · rw [if_neg h]

/-- Allocation leaves the alpha signatures of existing indices alone. -/
theorem alphaSig_pushNode (e : Engine) (n : Node) (c : Nat)
    (hc : c ≠ e.arena.length) :
    alphaSig ((e.pushNode n).1) c = alphaSig e c := by
  rw [alphaSig, alphaSig, getNode_pushNode, if_neg hc]

/-- Duplicate detection only depends on the two alpha signatures. -/
theorem dupAlphaPy_congr (e1 e2 : Engine) (c1 c2 : Nat)
    (h1 : alphaSig e2 c1 = alphaSig e1 c1)
    (h2 : alphaSig e2 c2 = alphaSig e1 c2) :
    dupAlphaPy e2 c1 c2 = dupAlphaPy e1 c1 c2 := by
  rw [dupAlphaPy, dupAlphaPy, h1, h2]

/-- A non-alpha right-hand node never counts as a duplicate. -/
theorem dupAlphaPy_none_right (e : Engine) (a c : Nat)
    (h : alphaSig e c = none) : dupAlphaPy e a c = false := by
  rw [dupAlphaPy, h]
  cases alphaSig e a <;> rfl

/-- Allocating a fresh node preserves the compile invariant. -/
theorem compileInv_pushNode (e : Engine) (k : NodeKind) (h : CompileInv e) :
    CompileInv ((e.pushNode (mkNode k)).1) := by
  obtain ⟨hwc, hwr, hsh, hqm, hqa⟩ := h
  refine ⟨?_, ?_, ?_, ?_, hqa⟩
  · intro nid c hc
    rw [getNode_pushNode] at hc
    rw [pushNode_length]
    by_cases hn : nid = e.arena.length
    · rw [if_pos hn] at hc
      simp [mkNode] at hc
    · rw [if_neg hn] at hc
      exact Nat.lt_succ_of_lt (hwc nid c hc)
  · intro p hp
    rw [pushNode_length]
    exact Nat.lt_succ_of_lt (hwr p hp)
  · intro nid
    rw [getNode_pushNode]
    by_cases hn : nid = e.arena.length
    · rw [if_pos hn]
      simp [mkNode]
    · rw [if_neg hn]
      refine (hsh nid).imp_of_mem ?_
      intro c1 c2 hc1 hc2 hdup
      rw [← hdup]
      apply dupAlphaPy_congr
      · exact alphaSig_pushNode e _ c1
          (Nat.ne_of_lt (hwc nid c1 hc1))
      · exact alphaSig_pushNode e _ c2
          (Nat.ne_of_lt (hwc nid c2 hc2))
  · intro i
    rw [getNode_pushNode]
    by_cases hn : i = e.arena.length
    · rw [if_pos hn]
      exact ⟨rfl, rfl, rfl⟩
    · rw [if_neg hn]
      exact hqm i

/-- Appending a child below into the arena preserves the compile invariant
as long as the new edge creates no duplicate alpha pair. -/
theorem compileInv_addChild (e : Engine) (p c : Nat) (h : CompileInv e)
    (hc : c < e.arena.length)
    (hdup : ∀ a ∈ (e.getNode p).children, dupAlphaPy e a c = false) :
    CompileInv (e.addChild p c) := by
  obtain ⟨hwc, hwr, hsh, hqm, hqa⟩ := h
  have hsig : ∀ x, alphaSig (e.addChild p c) x = alphaSig e x := by
    intro x
    unfold Engine.addChild
    exact alphaSig_setNode e p
      { e.getNode p with children := (e.getNode p).children ++ [c] } rfl x
  refine ⟨?_, ?_, ?_, ?_, hqa⟩
  · intro nid c2 hc2
    rw [Engine.addChild, getNode_setNode] at hc2
    rw [Engine.addChild, setNode_length]
    by_cases hn : p = nid ∧ p < e.arena.length
    · rw [if_pos hn] at hc2
      simp only [List.mem_append, List.mem_singleton] at hc2
      rcases hc2 with hold | rfl
      · exact hwc p c2 hold
      · exact hc
    · rw [if_neg hn] at hc2
      exact hwc nid c2 hc2
  · intro q hq
    rw [Engine.addChild, setNode_length]
    exact hwr q hq
  · intro nid
    have hch : ((e.addChild p c).getNode nid).children
        = if p = nid ∧ p < e.arena.length
          then (e.getNode p).children ++ [c] else (e.getNode nid).children := by
      rw [Engine.addChild, getNode_setNode]
      by_cases hn : p = nid ∧ p < e.arena.length
      · rw [if_pos hn, if_pos hn]
      · rw [if_neg hn, if_neg hn]
    rw [hch]
    by_cases hn : p = nid ∧ p < e.arena.length
    · rw [if_pos hn]
      apply List.pairwise_append.mpr
      refine ⟨?_, by simp, ?_⟩
      · refine (hsh p).imp_of_mem ?_
        intro c1 c2 _ _ hd
        rw [← hd, dupAlphaPy_congr _ _ c1 c2 (hsig c1) (hsig c2)]
      · intro a ha b hb
        simp only [List.mem_singleton] at hb
        subst hb
        rw [dupAlphaPy_congr _ _ a b (hsig a) (hsig b)]
        exact hdup a ha
    · rw [if_neg hn]
      refine (hsh nid).imp_of_mem ?_
      intro c1 c2 _ _ hd
      rw [← hd, dupAlphaPy_congr _ _ c1 c2 (hsig c1) (hsig c2)]
  · intro i
    rw [Engine.addChild, getNode_setNode]
    by_cases hn : p = i ∧ p < e.arena.length
    · rw [if_pos hn]
      exact hqm p
    · rw [if_neg hn]
      exact hqm i

/-- A failed sharing search means no existing child is a Python-equality
duplicate of the would-be alpha node. -/
theorem findAlphaChild_none_no_dup (e e1 : Engine) (children : List Nat)
    (field op : String) (v : PyVal) (newId : Nat)
    (hfind : findAlphaChild e children field op v = none)
    (hsame : ∀ c ∈ children, alphaSig e1 c = alphaSig e c)
    (hnew : alphaSig e1 newId = some (field, op, v)) :
    ∀ c ∈ children, dupAlphaPy e1 c newId = false := by
  intro c hc
  have hpred := List.find?_eq_none.mp hfind c hc
  rw [dupAlphaPy, hsame c hc, hnew, alphaSig]
  cases hk : (e.getNode c).kind with
  | alphaN f o w =>
    rw [hk] at hpred
    simp only [Bool.not_eq_true] at hpred
    simpa using hpred
  | typeN cls => simp
  | cartesianN => simp
  | hashN li lf rf => simp
  | terminalN rn sal => simp

/-- A successful sharing search returns one of the children. -/
theorem findAlphaChild_some_mem (e : Engine) (children : List Nat)
    (field op : String) (v : PyVal) (cid : Nat)
    (hfind : findAlphaChild e children field op v = some cid) :
    cid ∈ children :=
  List.mem_of_find?_eq_some hfind

/-- Getting or creating a type node preserves the compile invariant, and
the returned index is in range; existing node kinds are untouched. -/
theorem getOrCreateTypeNode_inv (e : Engine) (cls : String)
    (h : CompileInv e) :
    CompileInv (getOrCreateTypeNode e cls).1
    ∧ (getOrCreateTypeNode e cls).2 < (getOrCreateTypeNode e cls).1.arena.length
    ∧ e.arena.length ≤ (getOrCreateTypeNode e cls).1.arena.length
    ∧ (∀ i, i < e.arena.length →
        ((getOrCreateTypeNode e cls).1.getNode i).kind = (e.getNode i).kind) := by
  rw [getOrCreateTypeNode]
  cases hf : e.reteRoot.find? (fun p => p.1 == cls) with
  | some p =>
    refine ⟨h, ?_, le_refl _, fun i _ => rfl⟩
    exact h.2.1 p (List.mem_of_find?_eq_some hf)
  | none =>
    have hpush := compileInv_pushNode e (.typeN cls) h
    have hinv : CompileInv
        { (e.pushNode (mkNode (.typeN cls))).1 with
            reteRoot := (e.pushNode (mkNode (.typeN cls))).1.reteRoot
              ++ [(cls, (e.pushNode (mkNode (.typeN cls))).2)] } := by
      obtain ⟨hwc, hwr, hsh, hq⟩ := hpush
      refine ⟨hwc, ?_, hsh, hq⟩
      intro q hq2
      simp only [List.mem_append, List.mem_singleton] at hq2
      rcases hq2 with hold | rfl
      · exact hwr q hold
      · rw [pushNode_length, pushNode_idx]
        exact Nat.lt_succ_self _
    refine ⟨hinv, ?_, ?_, ?_⟩
    · simp only [pushNode_length, pushNode_idx]
      exact Nat.lt_succ_self _
    · simp only [pushNode_length]
      exact Nat.le_succ _
    · intro i hi
      have : ((e.pushNode (mkNode (.typeN cls))).1.getNode i).kind
          = (e.getNode i).kind := by
        rw [getNode_pushNode, if_neg (Nat.ne_of_lt hi)]
      exact this

/-- Bind on a successful Except computation. -/
theorem except_bind_ok {α β : Type} (a : α) (f : α → Except String β) :
    (Except.ok a >>= f) = f a := rfl

/-- Bind on a failed Except computation. -/
theorem except_bind_error {α β : Type} (s : String)
    (f : α → Except String β) :
    ((Except.error s : Except String α) >>= f) = .error s := rfl

/-- The alpha-chain builder preserves the compile invariant; it returns an
in-range tail, only grows the arena, and never changes an existing kind. -/
theorem alphaChainLoop_inv :
    ∀ (cs : List (String × PyVal)) (e : Engine) (cur : Nat)
      (res : Engine × Nat),
      alphaChainLoop e cur cs = .ok res → CompileInv e →
      cur < e.arena.length →
      CompileInv res.1 ∧ res.2 < res.1.arena.length
        ∧ e.arena.length ≤ res.1.arena.length
        ∧ ∀ i, i < e.arena.length →
            (res.1.getNode i).kind = (e.getNode i).kind := by
  intro cs
  induction cs with
  | nil =>
    intro e cur res hok h hcur
    rw [alphaChainLoop] at hok
    simp only [Except.ok.injEq] at hok
    subst hok
    exact ⟨h, hcur, le_refl _, fun i _ => rfl⟩
  | cons kv rest ih =>
    intro e cur res hok h hcur
    obtain ⟨k, v⟩ := kv
    rw [alphaChainLoop] at hok
    cases hpk : parseKey k with
    | error s =>
      rw [hpk, except_bind_error] at hok
      exact Except.noConfusion hok
    | ok fo =>
      rw [hpk, except_bind_ok] at hok
      cases hfind : findAlphaChild e (e.getNode cur).children fo.1 fo.2 v with
      | some cid =>
        rw [hfind] at hok
        exact ih e cid res hok h
          (h.1 cur cid (findAlphaChild_some_mem _ _ _ _ _ _ hfind))
      | none =>
        rw [hfind] at hok
        simp only [] at hok
        rw [pushNode_idx] at hok
        set e1 := (e.pushNode (mkNode (.alphaN fo.1 fo.2 v))).1 with he1
        have hlen1 : e1.arena.length = e.arena.length + 1 := pushNode_length _ _
        have hinv1 : CompileInv e1 := compileInv_pushNode e _ h
        have hsigs : ∀ c ∈ (e.getNode cur).children, alphaSig e1 c = alphaSig e c := by
          intro c hcmem
          exact alphaSig_pushNode e _ c (Nat.ne_of_lt (h.1 cur c hcmem))
        have hnew : alphaSig e1 (e.arena.length) = some (fo.1, fo.2, v) := by
          rw [alphaSig, getNode_pushNode, if_pos rfl]
          rfl
        have hch1 : (e1.getNode cur).children = (e.getNode cur).children := by
          rw [getNode_pushNode, if_neg (Nat.ne_of_lt hcur)]
        have hdup : ∀ a ∈ (e1.getNode cur).children,
            dupAlphaPy e1 a e.arena.length = false := by
          rw [hch1]
          exact findAlphaChild_none_no_dup e e1 _ fo.1 fo.2 v _ hfind hsigs hnew
        have hinv2 : CompileInv (e1.addChild cur e.arena.length) :=
          compileInv_addChild e1 cur e.arena.length hinv1
            (by rw [hlen1]; exact Nat.lt_succ_self _) hdup
        have hlen2 : (e1.addChild cur e.arena.length).arena.length
            = e.arena.length + 1 := by
          rw [Engine.addChild, setNode_length, hlen1]
        obtain ⟨hA, hB, hC, hD⟩ := ih _ _ res hok hinv2
          (by rw [hlen2]; exact Nat.lt_succ_self _)
        refine ⟨hA, hB, ?_, ?_⟩
        · rw [hlen2] at hC
          exact le_trans (Nat.le_succ _) hC
        · intro i hi
          rw [hD i (by rw [hlen2]; exact Nat.lt_succ_of_lt hi)]
          rw [Engine.addChild, getNode_setNode]
          by_cases hcnd : cur = i ∧ cur < e1.arena.length
          · rw [if_pos hcnd]
            simp only []
            rw [← hcnd.1, getNode_pushNode, if_neg (Nat.ne_of_lt hcur)]
          · rw [if_neg hcnd]
            rw [getNode_pushNode, if_neg (Nat.ne_of_lt hi)]

/-- Chaining the type node and the alpha chain. -/
theorem getOrCreateAlphaChain_inv (e : Engine) (p : RulePattern)
    (res : Engine × Nat) (hok : getOrCreateAlphaChain e p = .ok res)
    (h : CompileInv e) :
    CompileInv res.1 ∧ res.2 < res.1.arena.length
      ∧ e.arena.length ≤ res.1.arena.length
      ∧ ∀ i, i < e.arena.length →
          (res.1.getNode i).kind = (e.getNode i).kind := by
  rw [getOrCreateAlphaChain] at hok
  obtain ⟨h1, h2, h3, h4⟩ := getOrCreateTypeNode_inv e p.cls h
  obtain ⟨hA, hB, hC, hD⟩ := alphaChainLoop_inv p.constraints _ _ res hok h1 h2
  refine ⟨hA, hB, le_trans h3 hC, ?_⟩
  intro i hi
  rw [hD i (lt_of_lt_of_le hi h3), h4 i hi]

/-- Shape agreement is reflexive. -/
theorem shapeEq_refl (e : Engine) : ShapeEq e e :=
  ⟨rfl, fun _ => ⟨rfl, rfl⟩, rfl, rfl⟩

/-- A quiet state with the same shape inherits the compile invariant. -/
theorem compileInv_of_shape (e e2 : Engine) (hs : ShapeEq e e2)
    (hq2 : Quiet e2) (h : CompileInv e) : CompileInv e2 := by
  obtain ⟨hlen, hnodes, hroot, _⟩ := hs
  obtain ⟨hwc, hwr, hsh, _⟩ := h
  refine ⟨?_, ?_, ?_, hq2⟩
  · intro nid c hc
    rw [(hnodes nid).2] at hc
    rw [hlen]
    exact hwc nid c hc
  · intro p hp
    rw [hroot] at hp
    rw [hlen]
    exact hwr p hp
  · intro nid
    rw [(hnodes nid).2]
    refine (hsh nid).imp ?_
    intro c1 c2 hd
    rw [← hd, dupAlphaPy, dupAlphaPy, alphaSig, alphaSig, alphaSig, alphaSig,
      (hnodes c1).1, (hnodes c2).1]

/-- Sending the root token into a beta node of a quiet network only appends
to its left memory: the right side is empty, so nothing propagates, no
structure changes, and the network stays quiet. -/
theorem dispatch_root_quiet (fuel : Nat) (e : Engine) (c : Nat)
    (hq : Quiet e)
    (hk : (e.getNode c).kind = .cartesianN
      ∨ ∃ li lf rf, (e.getNode c).kind = .hashN li lf rf) :
    Quiet (dispatch fuel e c (.tokenS .root))
    ∧ ShapeEq e (dispatch fuel e c (.tokenS .root)) := by
  cases fuel with
  | zero => exact ⟨hq, shapeEq_refl e⟩
  | succ m =>
    rw [dispatch]
    rcases hk with hc | ⟨li, lf, rf, hc⟩
    · simp only [dispatchBody, hc]
      rw [(hq.1 c).1, List.foldl_nil]
      constructor
      · refine ⟨?_, hq.2⟩
        intro i
        rw [getNode_setNode]
        by_cases hn : c = i ∧ c < e.arena.length
        · rw [if_pos hn]
          exact ⟨rfl, (hq.1 c).2.1, (hq.1 c).2.2⟩
        · rw [if_neg hn]
          exact hq.1 i
      · refine ⟨setNode_length _ _ _, ?_, rfl, rfl⟩
        intro i
        rw [getNode_setNode]
        by_cases hn : c = i ∧ c < e.arena.length
        · rw [if_pos hn, ← hn.1]
          exact ⟨hc.symm, rfl⟩
        · rw [if_neg hn]
          exact ⟨rfl, rfl⟩
    · simp only [dispatchBody, hc]
      rw [hashLeftUpdate]
      simp only [TokenV.getFactByIndex, TokenV.toList, List.getElem?_nil,
        List.foldl_nil]
      constructor
      · refine ⟨?_, hq.2⟩
        intro i
        rw [getNode_setNode]
        by_cases hn : c = i ∧ c < e.arena.length
        · rw [if_pos hn]
          exact hq.1 c
        · rw [if_neg hn]
          exact hq.1 i
      · refine ⟨setNode_length _ _ _, ?_, rfl, rfl⟩
        intro i
        rw [getNode_setNode]
        by_cases hn : c = i ∧ c < e.arena.length
        · rw [if_pos hn, ← hn.1]
          exact ⟨rfl, rfl⟩
        · rw [if_neg hn]
          exact ⟨rfl, rfl⟩

/-- Generic preservation through a fold. -/
theorem foldl_pres_inv {β : Type} (P : Engine → Prop)
    (g : Engine → β → Engine) (h : ∀ acc b, P acc → P (g acc b)) :
    ∀ (l : List β) (e : Engine), P e → P (l.foldl g e) := by
  intro l
  induction l with
  | nil => intro e hp; exact hp
  | cons b rest ih =>
    intro e hp
    rw [List.foldl_cons]
    exact ih (g e b) (h e b hp)

/-- Triggering the dummy root preserves the compile invariant: in a quiet
network the seeding only appends root tokens to beta left memories. -/
theorem dummyLeftActivate_inv (fuel : Nat) (e : Engine) (h : CompileInv e) :
    CompileInv (dummyLeftActivate fuel e) := by
  rw [dummyLeftActivate]
  apply foldl_pres_inv CompileInv
  · intro acc c hacc
    cases hk : (acc.getNode c).kind with
    | cartesianN =>
      simp only [hk]
      obtain ⟨hq2, hs⟩ :=
        dispatch_root_quiet fuel acc c hacc.2.2.2 (Or.inl hk)
      exact compileInv_of_shape acc _ hs hq2 hacc
    | hashN li lf rf =>
      simp only [hk]
      obtain ⟨hq2, hs⟩ :=
        dispatch_root_quiet fuel acc c hacc.2.2.2 (Or.inr ⟨li, lf, rf, hk⟩)
      exact compileInv_of_shape acc _ hs hq2 hacc
    | typeN cls => simp only [hk]; exact hacc
    | alphaN f o v => simp only [hk]; exact hacc
    | terminalN rn sal => simp only [hk]; exact hacc
  · exact h

/-- Appending a child leaves alpha signatures alone. -/
theorem alphaSig_addChild (e : Engine) (p c x : Nat) :
    alphaSig (e.addChild p c) x = alphaSig e x := by
  unfold Engine.addChild
  exact alphaSig_setNode e p
    { e.getNode p with children := (e.getNode p).children ++ [c] } rfl x

/-- Appending a child keeps the arena length. -/
theorem addChild_length (e : Engine) (p c : Nat) :
    (e.addChild p c).arena.length = e.arena.length := by
  unfold Engine.addChild
  exact setNode_length _ _ _

/-- Appending a child keeps every node kind. -/
theorem addChild_kind (e : Engine) (p c i : Nat) :
    ((e.addChild p c).getNode i).kind = (e.getNode i).kind := by
  unfold Engine.addChild
  rw [getNode_setNode]
  by_cases hn : p = i ∧ p < e.arena.length
  · rw [if_pos hn, ← hn.1]
  · rw [if_neg hn]

/-- Linking below the current beta input preserves the compile invariant
when the new child is an in-range non-alpha node. -/
theorem compileInv_addBetaInput (e : Engine) (betaIn : Option Nat) (c : Nat)
    (h : CompileInv e) (hc : c < e.arena.length)
    (hsig : alphaSig e c = none) :
    CompileInv (addBetaInput e betaIn c) := by
  cases betaIn with
  | none => exact h
  | some b =>
    exact compileInv_addChild e b c h hc
      (fun a _ => dupAlphaPy_none_right e a c hsig)

/-- Linking below the beta input keeps the arena length. -/
theorem addBetaInput_length (e : Engine) (betaIn : Option Nat) (c : Nat) :
    (addBetaInput e betaIn c).arena.length = e.arena.length := by
  cases betaIn with
  | none => rfl
  | some b => exact addChild_length _ _ _

/-- Linking below the beta input keeps every node kind. -/
theorem addBetaInput_kind (e : Engine) (betaIn : Option Nat) (c i : Nat) :
    ((addBetaInput e betaIn c).getNode i).kind = (e.getNode i).kind := by
  cases betaIn with
  | none => rfl
  | some b => exact addChild_kind _ _ _ _

/-- Linking below the beta input keeps alpha signatures. -/
theorem alphaSig_addBetaInput (e : Engine) (betaIn : Option Nat) (c x : Nat) :
    alphaSig (addBetaInput e betaIn c) x = alphaSig e x := by
  cases betaIn with
  | none => rfl
  | some b => exact alphaSig_addChild _ _ _ _

/-- One join-allocation step of the beta compiler: allocate a non-alpha
join node, feed it from the current beta input and from the alpha tail. -/
theorem compileInv_join_step (e : Engine) (betaIn : Option Nat) (tail : Nat)
    (k : NodeKind) (h : CompileInv e)
    (hka : ∀ f o v, k ≠ NodeKind.alphaN f o v) :
    CompileInv ((addBetaInput (e.pushNode (mkNode k)).1 betaIn
        e.arena.length).addChild tail e.arena.length)
    ∧ ((addBetaInput (e.pushNode (mkNode k)).1 betaIn
        e.arena.length).addChild tail e.arena.length).arena.length
      = e.arena.length + 1
    ∧ ∀ j, j < e.arena.length →
        (((addBetaInput (e.pushNode (mkNode k)).1 betaIn
            e.arena.length).addChild tail e.arena.length).getNode j).kind
          = (e.getNode j).kind := by
  have hsig1 : alphaSig (e.pushNode (mkNode k)).1 e.arena.length = none := by
    rw [alphaSig, getNode_pushNode, if_pos rfl]
    cases k with
    | alphaN f o v => exact absurd rfl (hka f o v)
    | typeN cls => rfl
    | cartesianN => rfl
    | hashN li lf rf => rfl
    | terminalN rn sal => rfl
  have h1 : CompileInv (e.pushNode (mkNode k)).1 := compileInv_pushNode e k h
  have hjlt : e.arena.length < (e.pushNode (mkNode k)).1.arena.length := by
    rw [pushNode_length]
    exact Nat.lt_succ_self _
  have h2 : CompileInv (addBetaInput (e.pushNode (mkNode k)).1 betaIn
      e.arena.length) :=
    compileInv_addBetaInput _ betaIn _ h1 hjlt hsig1
  have hsig2 : alphaSig (addBetaInput (e.pushNode (mkNode k)).1 betaIn
      e.arena.length) e.arena.length = none := by
    rw [alphaSig_addBetaInput]
    exact hsig1
  have hjlt2 : e.arena.length < (addBetaInput (e.pushNode (mkNode k)).1
      betaIn e.arena.length).arena.length := by
    rw [addBetaInput_length]
    exact hjlt
  refine ⟨?_, ?_, ?_⟩
  · exact compileInv_addChild _ tail _ h2 hjlt2
      (fun a _ => dupAlphaPy_none_right _ a _ hsig2)
  · rw [addChild_length, addBetaInput_length, pushNode_length]
  · intro j hj
    rw [addChild_kind, addBetaInput_kind, getNode_pushNode,
      if_neg (Nat.ne_of_lt hj)]

/-- The beta pattern loop preserves the compile invariant, only grows the
arena, and keeps existing kinds. -/
theorem betaLoop_inv :
    ∀ (ps : List RulePattern) (e : Engine)
      (kv : List (String × Nat × String)) (betaIn : Option Nat) (i : Nat)
      (res : Engine × Option Nat),
      betaLoop e kv betaIn i ps = .ok res → CompileInv e →
      CompileInv res.1 ∧ e.arena.length ≤ res.1.arena.length
        ∧ ∀ j, j < e.arena.length →
            (res.1.getNode j).kind = (e.getNode j).kind := by
  intro ps
  induction ps with
  | nil =>
    intro e kv betaIn i res hok h
    rw [betaLoop] at hok
    simp only [Except.ok.injEq] at hok
    subst hok
    exact ⟨h, le_refl _, fun j _ => rfl⟩
  | cons p rest ih =>
    intro e kv betaIn i res hok h
    rw [betaLoop] at hok
    cases hac : getOrCreateAlphaChain e p with
    | error s =>
      rw [hac, except_bind_error] at hok
      exact Except.noConfusion hok
    | ok ac =>
      rw [hac, except_bind_ok] at hok
      obtain ⟨h1, h2, h3, h4⟩ := getOrCreateAlphaChain_inv e p ac hac h
      by_cases hi : i == 0
      · rw [if_pos hi] at hok
        obtain ⟨hA, hB, hC⟩ := ih ac.1 kv betaIn (i + 1) res hok h1
        exact ⟨hA, le_trans h3 hB, fun j hj =>
          (hC j (lt_of_lt_of_le hj h3)).trans (h4 j hj)⟩
      · rw [if_neg hi] at hok
        simp only [] at hok
        rw [pushNode_idx] at hok
        cases hscan : (scanJoin i kv p.constraints).2 with
        | some cfg =>
          rw [hscan] at hok
          obtain ⟨hJ1, hJ2, hJ3⟩ := compileInv_join_step ac.1 betaIn ac.2
            (.hashN cfg.1 cfg.2.1 cfg.2.2) h1 (fun f o v hne => by
              exact NodeKind.noConfusion hne)
          obtain ⟨hA, hB, hC⟩ := ih _ _ _ (i + 1) res hok hJ1
          refine ⟨hA, ?_, ?_⟩
          · rw [hJ2] at hB
            exact le_trans h3 (le_trans (Nat.le_succ _) hB)
          · intro j hj
            have hj1 : j < ac.1.arena.length := lt_of_lt_of_le hj h3
            rw [hC j (by rw [hJ2]; exact Nat.lt_succ_of_lt hj1),
              hJ3 j hj1, h4 j hj]
        | none =>
          rw [hscan] at hok
          obtain ⟨hJ1, hJ2, hJ3⟩ := compileInv_join_step ac.1 betaIn ac.2
            .cartesianN h1 (fun f o v hne => by
              exact NodeKind.noConfusion hne)
          obtain ⟨hA, hB, hC⟩ := ih _ _ _ (i + 1) res hok hJ1
          refine ⟨hA, ?_, ?_⟩
          · rw [hJ2] at hB
            exact le_trans h3 (le_trans (Nat.le_succ _) hB)
          · intro j hj
            have hj1 : j < ac.1.arena.length := lt_of_lt_of_le hj h3
            rw [hC j (by rw [hJ2]; exact Nat.lt_succ_of_lt hj1),
              hJ3 j hj1, h4 j hj]

/-- Compiling one rule preserves the compile invariant. -/
theorem compileRule_inv (fuel : Nat) (e : Engine) (r : RuleDef)
    (e2 : Engine) (hok : compileRule fuel e r = .ok e2)
    (h : CompileInv e) : CompileInv e2 := by
  obtain ⟨rn, rs, rpats⟩ := r
  rw [compileRule] at hok
  simp only [] at hok
  rw [pushNode_idx] at hok
  have hpush : CompileInv (e.pushNode (mkNode (.terminalN rn rs))).1 :=
    compileInv_pushNode e _ h
  have htermlt : e.arena.length
      < (e.pushNode (mkNode (.terminalN rn rs))).1.arena.length := by
    rw [pushNode_length]
    exact Nat.lt_succ_self _
  have htermkind : ((e.pushNode (mkNode (.terminalN rn rs))).1.getNode
      e.arena.length).kind = .terminalN rn rs := by
    rw [getNode_pushNode, if_pos rfl]
    rfl
  cases rpats with
  | nil =>
    exact Except.noConfusion hok
  | cons first restPats =>
    cases restPats with
    | nil =>
      simp only [] at hok
      cases hac : getOrCreateAlphaChain
          (e.pushNode (mkNode (.terminalN rn rs))).1 first with
      | error s =>
        rw [hac, except_bind_error] at hok
        exact Except.noConfusion hok
      | ok ac =>
        rw [hac, except_bind_ok] at hok
        simp only [Except.ok.injEq] at hok
        subst hok
        obtain ⟨h1, h2, h3, h4⟩ := getOrCreateAlphaChain_inv _ first ac hac hpush
        have hsigterm : alphaSig ac.1 e.arena.length = none := by
          rw [alphaSig, h4 e.arena.length htermlt, htermkind]
        exact compileInv_addChild ac.1 ac.2 e.arena.length h1
          (lt_of_lt_of_le htermlt h3)
          (fun a _ => dupAlphaPy_none_right _ a _ hsigterm)
    | cons second restPats2 =>
      simp only [] at hok
      cases hbl : betaLoop (e.pushNode (mkNode (.terminalN rn rs))).1
          (seedKnownVars first.constraints) none 0
          (first :: second :: restPats2) with
      | error s =>
        rw [hbl, except_bind_error] at hok
        exact Except.noConfusion hok
      | ok lp =>
        rw [hbl, except_bind_ok] at hok
        simp only [Except.ok.injEq] at hok
        subst hok
        obtain ⟨h1, h2, h3⟩ := betaLoop_inv _ _ _ _ _ lp hbl hpush
        have hsigterm : alphaSig lp.1 e.arena.length = none := by
          rw [alphaSig, h3 e.arena.length htermlt, htermkind]
        have hterm2 : e.arena.length < lp.1.arena.length :=
          lt_of_lt_of_le htermlt h2
        have hadd : CompileInv (addBetaInput lp.1 lp.2 e.arena.length) :=
          compileInv_addBetaInput lp.1 lp.2 e.arena.length h1 hterm2 hsigterm
        exact dummyLeftActivate_inv fuel _ hadd

/-- Folding rule compilation preserves any invariant its step preserves. -/
theorem foldlM_compile_inv (step : Engine → RuleDef → Except String Engine)
    (P : Engine → Prop)
    (hstep : ∀ e r e2, step e r = .ok e2 → P e → P e2) :
    ∀ (l : List RuleDef) (e e2 : Engine),
      l.foldlM step e = .ok e2 → P e → P e2 := by
  intro l
  induction l with
  | nil =>
    intro e e2 hok hp
    rw [List.foldlM_nil] at hok
    have hok2 : (Except.ok e : Except String Engine) = .ok e2 := hok
    simp only [Except.ok.injEq] at hok2
    subst hok2
    exact hp
  | cons r rest ih =>
    intro e e2 hok hp
    rw [List.foldlM_cons] at hok
    cases hs : step e r with
    | error s =>
      rw [hs, except_bind_error] at hok
      exact Except.noConfusion hok
    | ok e1 =>
      rw [hs, except_bind_ok] at hok
      exact ih e1 e2 hok (hstep e r e1 hs hp)

/-- The fresh engine satisfies the compile invariant. -/
theorem compileInv_empty (rules : List RuleDef) :
    CompileInv (emptyEngine rules) := by
  have hget : ∀ i, (emptyEngine rules).getNode i = defaultNode := by
    intro i
    simp [Engine.getNode, emptyEngine]
  refine ⟨?_, ?_, ?_, ?_, rfl⟩
  · intro nid c hc
    rw [hget] at hc
    simp [defaultNode, mkNode] at hc
  · intro p hp
    simp [emptyEngine] at hp
  · intro nid
    rw [hget]
    simp [defaultNode, mkNode]
  · intro i
    rw [hget]
    exact ⟨rfl, rfl, rfl⟩

/-- Compiling any rule set from scratch yields the compile invariant. -/
theorem compileAll_inv (fuel : Nat) (rules : List RuleDef) (e2 : Engine)
    (hok : compileAll fuel rules = .ok e2) : CompileInv e2 := by
  rw [compileAll] at hok
  exact foldlM_compile_inv _ CompileInv
    (fun e r e3 hs hp => compileRule_inv fuel e r e3 hs hp)
    rules (emptyEngine rules) e2 hok (compileInv_empty rules)

-- ===========================================================================
-- Claim C2
-- ===========================================================================

/-- Claim C2, counterexample: compiling the same binding-constrained pattern
in two rules creates two alpha children of the same Type node with identical
field, operator and binding NAME, because each `MATCH.c` access is a fresh
`Match` object and `child.value == value` compares such objects by
identity. -/
theorem c2_counterexample :
    (compileAll 5 [ruleB1, ruleB2]).toOption.map hasDupAlphaChildren
      = some true := by decide

/-- Claim C2 as amended: after compiling any rule set, no node of the
network has two alpha children with the same field, the same operator and
Python-equal values — literals compare by value, binding references by
identity.  Distinct binding objects that merely share a name are not
Python-equal, so they may produce duplicate alpha nodes. -/
theorem c2_sharing_python_equality (fuel : Nat) (rules : List RuleDef)
    (e : Engine) (h : compileAll fuel rules = .ok e) : SharingInv e :=
  (compileAll_inv fuel rules e h).2.2.1

/-- Claim C2, witness: the amended sharing invariant holds of the concrete
engine that compiles the two binding rules of the counterexample. -/
theorem c2_witness :
    ∃ e, compileAll 5 [ruleB1, ruleB2] = .ok e ∧ SharingInv e :=
  ⟨_, rfl, c2_sharing_python_equality 5 [ruleB1, ruleB2] _ rfl⟩

-- ===========================================================================
-- Claim C8
-- ===========================================================================

/-- A run over an empty agenda pops nothing. -/
theorem runAux_empty_agenda (env : String → List FactV → List FactV)
    (pf : Nat) (n : Nat) (e : Engine)
    (h : e.agenda.activations = []) : (runAux env pf n e).2 = [] := by
  cases n with
  | zero => rfl
  | succ m =>
    rw [runAux]
    have hp : popAgenda e.agenda = none := (popAgenda_none e.agenda).mpr h
    rw [hp]

/-- Claim C8: reset() (modelled from the spec, which describes it as
replacing the agenda, type-node map and dummy root and re-compiling the
registered rules; the method is absent from src/) leaves a quiet engine:
re-compilation from scratch enqueues nothing, so a run right after a
successful reset fires zero activations until new facts are declared. -/
theorem c8_reset_then_run_fires_nothing (fuel : Nat) (e e2 : Engine)
    (env : String → List FactV → List FactV) (pf : Nat)
    (h : reset fuel e = .ok e2) : (run env pf e2).2 = [] := by
  have hq : Quiet e2 := (compileAll_inv fuel e.rules e2 h).2.2.2
  rw [run]
  exact runAux_empty_agenda env pf 1000 e2 hq.2

/-- Claim C8, witness: resetting an engine that registers a single-pattern
rule and a two-pattern rule succeeds, and the following run fires zero
activations. -/
theorem c8_witness :
    ∃ e2, reset 5 engineRules = .ok e2 ∧ (run envNop 5 e2).2 = [] :=
  ⟨_, rfl, c8_reset_then_run_fires_nothing 5 engineRules _ envNop 5 rfl⟩
